import Mathlib

set_option maxHeartbeats 1000000

/-!
Verification development for the json-masker repository (package `masker`,
file `masker.go`).  The engine decodes a JSON document into a generic value
tree, walks it while building a path string for every node, replaces the
nodes whose canonicalized path is in the caller's rule set, and re-encodes
the tree.

The value tree is the one produced by Go's `json.Unmarshal` into an
`interface{}`: objects (`map[string]interface{}`), arrays (`[]interface{}`),
strings, numbers, booleans and null.  We use mutually inductive types
(instead of a nested `List`) so that every function below is structurally
recursive and reducible by the kernel.  Numbers are kept as exact decimal
mantissa/exponent pairs; the masking engine never inspects the numeric
payload, it only dispatches on the kind of the node.
-/

mutual

inductive Json where
  | null : Json
  | bool (b : Bool) : Json
  | num (mant : Int) (exp10 : Int) : Json
  | str (s : String) : Json
  | arr (elems : JsonList) : Json
  | obj (fields : JsonFields) : Json

inductive JsonList where
  | nil : JsonList
  | cons (hd : Json) (tl : JsonList) : JsonList

inductive JsonFields where
  | nil : JsonFields
  | cons (key : String) (val : Json) (tl : JsonFields) : JsonFields

end

/-- Map a function over every element of a `JsonList` (used to state what the
walk does to a fully masked array). -/
def JsonList.map (g : Json → Json) : JsonList → JsonList
  | .nil => .nil
  | .cons x tl => .cons (g x) (JsonList.map g tl)

/-- Length of a `JsonList`. -/
def JsonList.length : JsonList → Nat
  | .nil => 0
  | .cons _ tl => JsonList.length tl + 1

/-- First field with the given key, as Go's map indexing would find it. -/
def JsonFields.find : JsonFields → String → Option Json
  | .nil, _ => none
  | .cons k v tl, key => if k = key then some v else JsonFields.find tl key

/-- Element at index `i`. -/
def JsonList.get : JsonList → Nat → Option Json
  | .nil, _ => none
  | .cons x _, 0 => some x
  | .cons _ tl, n + 1 => JsonList.get tl n

mutual

/-- `true` when the value contains no JSON `null` anywhere (the walk in
`masker.go` treats `null` specially: a null map entry is deleted by
`SetMapIndex` with a zero `reflect.Value`, and a null slice element makes
`reflect.Value.Set` panic). -/
def nullFree : Json → Bool
  | .null => false
  | .bool _ => true
  | .num _ _ => true
  | .str _ => true
  | .arr xs => nullFreeList xs
  | .obj fs => nullFreeFields fs

def nullFreeList : JsonList → Bool
  | .nil => true
  | .cons x tl => nullFree x && nullFreeList tl

def nullFreeFields : JsonFields → Bool
  | .nil => true
  | .cons _ v tl => nullFree v && nullFreeFields tl

end

/-- Scalar (leaf) values: number, boolean or string.  JSON `null` is kept
separate because the walk treats it specially. -/
def isScalar : Json → Bool
  | .bool _ => true
  | .num _ _ => true
  | .str _ => true
  | _ => false

/-!
## Path normalization

`masker.go` line 10 compiles the package-level regular expression

    var removeIndexRegex = regexp.MustCompile(`\[\d+\]`)

and `isMaskedPath` (lines 157-160) replaces every match with `[]` before the
rule-set lookup: `removeIndexRegex.ReplaceAllString(path, "[]")`.

We model `ReplaceAllString` with a left-to-right scan.  Because the pattern
is `\[` followed by one or more digits followed by `\]`, a match attempt at a
`[` succeeds exactly when the maximal digit run after it is nonempty and is
immediately followed by `]` (a shorter digit run would be followed by another
digit, never by `]`), and matches never overlap.  The scan is written as a
state machine that is structurally recursive on the character list: the
state `some ds` means we have read a `[` followed by the (reversed) digit
run `ds` and have not yet decided whether the match succeeds.
-/

/-- One left-to-right pass of `removeIndexRegex.ReplaceAllString(path, "[]")`.
`st = none`: normal scanning; `st = some ds`: a `[` and the digit run `ds`
(reversed) have been read and are pending. -/
def riGo : Option (List Char) → List Char → List Char
  | none, [] => []
  | none, c :: cs => if c = '[' then riGo (some []) cs else c :: riGo none cs
  | some ds, [] => '[' :: ds.reverse
  | some ds, c :: cs =>
    if c.isDigit then riGo (some (c :: ds)) cs
    else if c = ']' ∧ ds ≠ [] then '[' :: ']' :: riGo none cs
    else '[' :: ds.reverse ++ (if c = '[' then riGo (some []) cs else c :: riGo none cs)

/-- `removeIndexRegex.ReplaceAllString(path, "[]")` from `masker.go` line 158:
the canonical form of a traversal path, with every bracketed decimal index
collapsed to `[]`. -/
def normalizePath (path : String) : String :=
  ⟨riGo none path.data⟩

/-- Whether the string contains at least one occurrence of the pattern
`\[\d+\]` (a bracketed decimal index).  Same scan as `riGo`, reporting only
whether a match exists; the state records whether a `[` is pending and
whether at least one digit followed it. -/
def hasIdxGo : Option Bool → List Char → Bool
  | _, [] => false
  | none, c :: cs => if c = '[' then hasIdxGo (some false) cs else hasIdxGo none cs
  | some seen, c :: cs =>
    if c.isDigit then hasIdxGo (some true) cs
    else if c = ']' ∧ seen then true
    else if c = '[' then hasIdxGo (some false) cs else hasIdxGo none cs

/-- `true` when the path contains a bracketed decimal index (an occurrence of
the regular expression `\[\d+\]`). -/
def hasBracketedIndex (path : String) : Bool :=
  hasIdxGo none path.data

/-- `isMaskedPath` from `masker.go` lines 157-160: the rule set contains the
canonicalized path.  The Go code stores the rules in a `map[string]bool` and
tests presence of the key; we model the map built from the rule list by list
membership (duplicates collapse harmlessly either way). -/
def isMaskedPath (path : String) (maskPaths : List String) : Bool :=
  maskPaths.contains (normalizePath path)

/-!
## Decimal rendering of array indices

The walk builds array-element paths with `fmt.Sprintf("%s[%d]", path, i)`.
`natToChars` models the `%d` rendering of the (non-negative) index.  It is
written with an explicit fuel argument (any fuel above the number of digits
gives the same answer) so that it reduces in the kernel.
-/

def digitChar (n : Nat) : Char := Char.ofNat (48 + n)

def natToCharsAux : Nat → Nat → List Char
  | 0, _ => []
  | fuel + 1, n => if n < 10 then [digitChar n] else natToCharsAux fuel (n / 10) ++ [digitChar (n % 10)]

/-- Decimal digits of `n`, most significant first (the `%d` rendering). -/
def natToChars (n : Nat) : List Char := natToCharsAux (n + 1) n

/-- Decimal rendering of a non-negative integer, as a string. -/
def natToString (n : Nat) : String := ⟨natToChars n⟩

/-- Decimal rendering of an integer (used by the JSON encoder). -/
def intToChars (i : Int) : List Char :=
  if i < 0 then '-' :: natToChars i.natAbs else natToChars i.natAbs

/-!
## Masker configuration (`masker.go` lines 12-48)

`NewMasker` builds a `&masker{}` (zero value: nil `maskFunc`, debug off) and
then applies the functional options.  Note that no default mask function is
installed.  The Go `maskFunc` has type `func(field any) string`; a nil
function value is modelled by `Option`.
-/

structure masker where
  maskFunc : Option (Json → String)
  isDebugMode : Bool

def option := masker → masker

/-- `WithMaskFunc` option: install a caller-provided mask function. -/
def WithMaskFunc (f : Json → String) : option :=
  fun m => { m with maskFunc := some f }

/-- `WithFixedMaskString` option: mask every matched value with the fixed
string `maskStr`. -/
def WithFixedMaskString (maskStr : String) : option :=
  WithMaskFunc (fun _ => maskStr)

/-- `WithDebugMode` option. -/
def WithDebugMode : option :=
  fun m => { m with isDebugMode := true }

/-- `NewMasker` (`masker.go` lines 42-48).  The `maskPaths` argument is
accepted and ignored, exactly as in the Go code (the paths are passed again
to `Mask`). -/
def NewMasker (maskPaths : List String) (opts : List option) : masker :=
  let _ := maskPaths
  opts.foldl (fun m o => o m) { maskFunc := none, isDebugMode := false }

/-- The fixed `"[REDACTED]"` mask function used by the repository's tests. -/
def fRED : Json → String := fun _ => "[REDACTED]"

/-- A masker configured as in the repository's tests:
`NewMasker(paths, withFixedMaskString("[REDACTED]"))`. -/
def mRED : masker := NewMasker [] [WithFixedMaskString ("[REDACTED]")]

/-!
## The tree walk (`maskWithPaths`, `masker.go` lines 79-147)

The decoded tree only contains `map[string]interface{}`, `[]interface{}`,
`string`, `float64`, `bool` and nil values, so of the reflection switch only
the `Map`, `Slice`, `Interface` and default cases (plus the `!IsValid`
branch) are reachable; the `Struct`, `Array` and pointer cases are dead for
trees produced by `json.Unmarshal` into `interface{}` and are not modelled.

Children of maps and slices are interface-wrapped (`reflect.Kind` =
`Interface`), so visiting a child first runs the wrapper visit — log, rule
check, nil check — and then recurses into the element with the same path.
That wrapper logic is inlined at the two container call sites below.  The
wrapper returns `input.Interface()`; because maps and slices are mutated in
place and scalars are returned unchanged, this is observationally the value
produced by the recursive call, which is what the model returns.

Quirks modelled faithfully:
* the `!input.IsValid()` branch (reachable only for a `null` document root,
  where `reflect.ValueOf(nil)` is the zero `Value`) returns **before** the
  rule check; the zero `reflect.Value` is marshalled as `{}` later;
* a nil (JSON null) map entry makes the recursion return Go `nil`, and
  `SetMapIndex` with the resulting zero `reflect.Value` *deletes the key*;
* a nil slice element makes `reflect.Value.Set` panic on a zero `Value`;
* a nil `maskFunc` (no option configured) panics when a path matches.

The second component of the result is the trace of the path-related debug
log calls (`"Processing path: %s"` on entry, `"Masking path: %s"` when a
rule matches), which records exactly which paths were visited and tested
against the rule set.  In Go the lines are printed only in debug mode; the
trace itself does not depend on the flag.  Go iterates map keys in
unspecified order; the model processes fields in decode order (each entry is
handled independently, so the resulting tree does not depend on the order).
-/

inductive LogEvent where
  | processing (path : String)
  | masking (path : String)
deriving DecidableEq

/-- The path carried by a log event. -/
def LogEvent.path : LogEvent → String
  | .processing p => p
  | .masking p => p

/-- Go runtime panics reachable in `maskWithPaths`. -/
inductive GoPanic where
  | nilMaskFunc
  | setZeroValue
deriving DecidableEq

/-- Result value of the walk: a JSON tree, or the zero `reflect.Value`
returned by the `!input.IsValid()` branch for a null root. -/
inductive GoVal where
  | json (j : Json)
  | invalidValue

mutual

/-- `maskWithPaths` (`masker.go` lines 79-147) on an unwrapped value (the
document root, or the element behind an interface wrapper). -/
def maskWithPaths (m : masker) (rules : List String) (path : String) :
    Json → Except GoPanic GoVal × List LogEvent
  | .null =>
    -- reflect.ValueOf(nil) is the zero Value: the `!input.IsValid()` branch
    -- returns reflect.ValueOf(nil) before the rule check.
    (.ok .invalidValue, [.processing path])
  | v =>
    if isMaskedPath path rules then
      match m.maskFunc with
      | some f => (.ok (.json (.str (f v))), [.processing path, .masking path])
      | none => (.error .nilMaskFunc, [.processing path, .masking path])
    else
      match v with
      | .obj fields =>
        match maskFields m rules path fields with
        | (.ok fs, tr) => (.ok (.json (.obj fs)), .processing path :: tr)
        | (.error e, tr) => (.error e, .processing path :: tr)
      | .arr xs =>
        match maskElems m rules path 0 xs with
        | (.ok ys, tr) => (.ok (.json (.arr ys)), .processing path :: tr)
        | (.error e, tr) => (.error e, .processing path :: tr)
      | w => (.ok (.json w), [.processing path])

/-- The `reflect.Map` case: each entry's value is interface-wrapped, so the
wrapper visit (log, rule check, nil check) is inlined before the recursion
into the element.  A masked entry is replaced via `SetMapIndex`; a nil entry
is deleted (`SetMapIndex` with a zero `Value`); otherwise the recursion
result is stored back. -/
def maskFields (m : masker) (rules : List String) (path : String) :
    JsonFields → Except GoPanic JsonFields × List LogEvent
  | .nil => (.ok .nil, [])
  | .cons k v tl =>
    let childPath := path ++ "." ++ k
    if isMaskedPath childPath rules then
      match m.maskFunc with
      | some f =>
        match maskFields m rules path tl with
        | (.ok fs, tr) => (.ok (.cons k (.str (f v)) fs), .processing childPath :: .masking childPath :: tr)
        | (.error e, tr) => (.error e, .processing childPath :: .masking childPath :: tr)
      | none => (.error .nilMaskFunc, [.processing childPath, .masking childPath])
    else
      match v with
      | .null =>
        -- wrapper returns Go nil; SetMapIndex with a zero Value deletes the key
        match maskFields m rules path tl with
        | (r, tr) => (r, .processing childPath :: tr)
      | w =>
        match maskWithPaths m rules childPath w with
        | (.ok gv, tr) =>
          -- the wrapper returns input.Interface(): the (in-place mutated)
          -- element, i.e. the value produced by the recursion
          let w' := match gv with | .json u => u | .invalidValue => w
          match maskFields m rules path tl with
          | (.ok fs, tr') => (.ok (.cons k w' fs), .processing childPath :: (tr ++ tr'))
          | (.error e, tr') => (.error e, .processing childPath :: (tr ++ tr'))
        | (.error e, tr) => (.error e, .processing childPath :: tr)

/-- The `reflect.Slice` case: element `i` is visited with path
`fmt.Sprintf("%s[%d]", path, i)`; the wrapper visit is inlined as for maps.
A nil element makes the recursion return Go `nil`, and
`input.Index(i).Set(reflect.ValueOf(nil))` panics on the zero `Value`. -/
def maskElems (m : masker) (rules : List String) (path : String) (i : Nat) :
    JsonList → Except GoPanic JsonList × List LogEvent
  | .nil => (.ok .nil, [])
  | .cons v tl =>
    let childPath := path ++ "[" ++ natToString i ++ "]"
    if isMaskedPath childPath rules then
      match m.maskFunc with
      | some f =>
        match maskElems m rules path (i + 1) tl with
        | (.ok ys, tr) => (.ok (.cons (.str (f v)) ys), .processing childPath :: .masking childPath :: tr)
        | (.error e, tr) => (.error e, .processing childPath :: .masking childPath :: tr)
      | none => (.error .nilMaskFunc, [.processing childPath, .masking childPath])
    else
      match v with
      | .null => (.error .setZeroValue, [.processing childPath])
      | w =>
        match maskWithPaths m rules childPath w with
        | (.ok gv, tr) =>
          let w' := match gv with | .json u => u | .invalidValue => w
          match maskElems m rules path (i + 1) tl with
          | (.ok ys, tr') => (.ok (.cons w' ys), .processing childPath :: (tr ++ tr'))
          | (.error e, tr') => (.error e, .processing childPath :: (tr ++ tr'))
        | (.error e, tr) => (.error e, .processing childPath :: tr)

end

/-!
## Document codec

`Mask` decodes with `json.Unmarshal` and re-encodes with `json.Marshal`
(`encoding/json`), which is outside this repository.

Modelled from the spec: §4.5 Document Codec — `Decode(text) -> Value` fails
with a decode error when the text is not syntactically valid JSON;
`Encode(Value) -> text` re-serializes the tree.  Numbers are modelled as
exact decimal mantissa/exponent pairs instead of IEEE `float64`, and the
encoder emits fields in decode order (§4.3 names decode order as the
intended output order).  Neither choice is observable by the masking engine,
which only dispatches on the kind of a node.
-/

def hexDigit (n : Nat) : Char :=
  if n < 10 then Char.ofNat (48 + n) else Char.ofNat (87 + n)

/-- Escape one character of a JSON string: `"` and `\` get a backslash,
control characters become `\u00XX`, everything else is emitted raw. -/
def escapeChar (c : Char) : List Char :=
  if c = '"' then ['\\', '"']
  else if c = '\\' then ['\\', '\\']
  else if c.toNat < 32 then ['\\', 'u', '0', '0', hexDigit (c.toNat / 16), hexDigit (c.toNat % 16)]
  else [c]

def escapeChars : List Char → List Char
  | [] => []
  | c :: cs => escapeChar c ++ escapeChars cs

/-- Encoding of a JSON string literal, quotes included. -/
def encodeStr (s : String) : List Char :=
  '"' :: (escapeChars s.data ++ ['"'])

/-- Encoding of a number `mant * 10 ^ exp10`: the mantissa, then an `e`
exponent when it is nonzero. -/
def encodeNum (mant exp10 : Int) : List Char :=
  intToChars mant ++ (if exp10 = 0 then [] else 'e' :: intToChars exp10)

mutual

/-- Modelled from the spec: the `Encode` half of the Document Codec. -/
def encodeJsonAux : Json → List Char
  | .null => ("null").data
  | .bool true => ("true").data
  | .bool false => ("false").data
  | .num mant e => encodeNum mant e
  | .str s => encodeStr s
  | .arr xs => '[' :: (encodeElems xs ++ [']'])
  | .obj fs => '\x7b' :: (encodeFields fs ++ ['\x7d'])

def encodeElems : JsonList → List Char
  | .nil => []
  | .cons x .nil => encodeJsonAux x
  | .cons x (.cons y tl) => encodeJsonAux x ++ ',' :: encodeElems (.cons y tl)

def encodeFields : JsonFields → List Char
  | .nil => []
  | .cons k v .nil => encodeStr k ++ ':' :: encodeJsonAux v
  | .cons k v (.cons k' v' tl) =>
    encodeStr k ++ ':' :: encodeJsonAux v ++ ',' :: encodeFields (.cons k' v' tl)

end

/-- Modelled from the spec: `Encode(Value) -> text`. -/
def encodeJson (v : Json) : String := ⟨encodeJsonAux v⟩

def isWs (c : Char) : Bool := c = ' ' || c = '\t' || c = '\n' || c = '\r'

def skipWs : List Char → List Char
  | [] => []
  | c :: cs => if isWs c then skipWs cs else c :: cs

def hexVal (c : Char) : Option Nat :=
  if c.isDigit then some (c.toNat - 48)
  else if 'a' ≤ c ∧ c ≤ 'f' then some (c.toNat - 87)
  else if 'A' ≤ c ∧ c ≤ 'F' then some (c.toNat - 55)
  else none

/-- Decode a single-character escape (everything except `\u`). -/
def escDecode (e : Char) : Option Char :=
  if e = '"' then some '"'
  else if e = '\\' then some '\\'
  else if e = '/' then some '/'
  else if e = 'b' then some (Char.ofNat 8)
  else if e = 'f' then some (Char.ofNat 12)
  else if e = 'n' then some '\n'
  else if e = 'r' then some (Char.ofNat 13)
  else if e = 't' then some '\t'
  else none

/-- Parse the body of a string literal (after the opening quote), returning
the decoded characters and the input after the closing quote. -/
def parseStrChars : List Char → Except String (List Char × List Char)
  | [] => .error ("unexpected end of input in string literal")
  | c :: cs =>
    if c = '"' then .ok ([], cs)
    else if c = '\\' then
      match cs with
      | [] => .error ("unexpected end of input after backslash")
      | e :: cs' =>
        if e = 'u' then
          match cs' with
          | h1 :: h2 :: h3 :: h4 :: cs'' =>
            match hexVal h1, hexVal h2, hexVal h3, hexVal h4 with
            | some a, some b, some c3, some d =>
              match parseStrChars cs'' with
              | .ok (s, r) => .ok (Char.ofNat (((a * 16 + b) * 16 + c3) * 16 + d) :: s, r)
              | .error msg => .error msg
            | _, _, _, _ => .error ("invalid hexadecimal digits in unicode escape")
          | _ => .error ("unexpected end of input in unicode escape")
        else
          match escDecode e with
          | some d =>
            match parseStrChars cs' with
            | .ok (s, r) => .ok (d :: s, r)
            | .error msg => .error msg
          | none => .error ("invalid escape character in string literal")
    else
      match parseStrChars cs with
      | .ok (s, r) => .ok (c :: s, r)
      | .error msg => .error msg

/-- Maximal leading digit run. -/
def takeDigits : List Char → List Char × List Char
  | [] => ([], [])
  | c :: cs =>
    if c.isDigit then
      match takeDigits cs with
      | (ds, r) => (c :: ds, r)
    else ([], c :: cs)

/-- Value of a digit run, most significant digit first. -/
def digitsVal (ds : List Char) : Nat :=
  ds.foldl (fun a c => a * 10 + (c.toNat - 48)) 0

/-- Strip a leading minus sign. -/
def negSign : List Char → Bool × List Char
  | c :: r => if c = '-' then (true, r) else (false, c :: r)
  | [] => (false, [])

/-- Strip a leading exponent sign (`+` or `-`). -/
def expSign : List Char → Bool × List Char
  | c :: r => if c = '-' then (true, r) else if c = '+' then (false, r) else (false, c :: r)
  | [] => (false, [])

/-- Parse the optional exponent of a number whose mantissa digits are
already known, and build the value. -/
def parseNumExp (neg : Bool) (mantDs : List Char) (e0 : Int) (rest : List Char) :
    Except String (Json × List Char) :=
  let mant : Int := if neg then -(digitsVal mantDs : Int) else (digitsVal mantDs : Int)
  match rest with
  | c :: r =>
    if c = 'e' ∨ c = 'E' then
      let se := expSign r
      match takeDigits se.2 with
      | ([], _) => .error ("missing digits in number exponent")
      | (expDs, rest2) =>
        let ev : Int := if se.1 then -(digitsVal expDs : Int) else (digitsVal expDs : Int)
        .ok (.num mant (e0 + ev), rest2)
    else .ok (.num mant e0, c :: r)
  | [] => .ok (.num mant e0, [])

/-- Parse a number (integer part, optional fraction, optional exponent) into
an exact mantissa/exponent pair. -/
def parseNum (cs : List Char) : Except String (Json × List Char) :=
  let sc := negSign cs
  match takeDigits sc.2 with
  | ([], _) => .error ("invalid number syntax")
  | (intDs, rest1) =>
    match rest1 with
    | c :: r =>
      if c = '.' then
        match takeDigits r with
        | ([], _) => .error ("missing digits after decimal point")
        | (fracDs, rest2) => parseNumExp sc.1 (intDs ++ fracDs) (-(fracDs.length : Int)) rest2
      else parseNumExp sc.1 intDs 0 (c :: r)
    | [] => parseNumExp sc.1 intDs 0 []

/-- Wrap a parsed string body as a `Json.str` result. -/
def parseStrTop (res : Except String (List Char × List Char)) :
    Except String (Json × List Char) :=
  match res with
  | .ok (s, r) => .ok (.str ⟨s⟩, r)
  | .error msg => .error msg

/-- The rest of a `null` literal after its leading `n`. -/
def parseLitNull : List Char → Except String (Json × List Char)
  | c1 :: c2 :: c3 :: rest =>
    if c1 = 'u' ∧ c2 = 'l' ∧ c3 = 'l' then .ok (.null, rest)
    else .error ("invalid literal")
  | _ => .error ("invalid literal")

/-- The rest of a `true` literal after its leading `t`. -/
def parseLitTrue : List Char → Except String (Json × List Char)
  | c1 :: c2 :: c3 :: rest =>
    if c1 = 'r' ∧ c2 = 'u' ∧ c3 = 'e' then .ok (.bool true, rest)
    else .error ("invalid literal")
  | _ => .error ("invalid literal")

/-- The rest of a `false` literal after its leading `f`. -/
def parseLitFalse : List Char → Except String (Json × List Char)
  | c1 :: c2 :: c3 :: c4 :: rest =>
    if c1 = 'a' ∧ c2 = 'l' ∧ c3 = 's' ∧ c4 = 'e' then .ok (.bool false, rest)
    else .error ("invalid literal")
  | _ => .error ("invalid literal")

/-- An array body after the opening bracket: empty, or elements read by `p`. -/
def parseArrBody (p : List Char → Except String (JsonList × List Char))
    (cs : List Char) : Except String (Json × List Char) :=
  match skipWs cs with
  | [] => .error ("unexpected end of input in array")
  | c :: r =>
    if c = ']' then .ok (.arr .nil, r)
    else
      match p (c :: r) with
      | .ok (xs, r') => .ok (.arr xs, r')
      | .error msg => .error msg

/-- An object body after the opening brace: empty, or members read by `p`. -/
def parseObjBody (p : List Char → Except String (JsonFields × List Char))
    (cs : List Char) : Except String (Json × List Char) :=
  match skipWs cs with
  | [] => .error ("unexpected end of input in object")
  | c :: r =>
    if c = '\x7d' then .ok (.obj .nil, r)
    else
      match p (c :: r) with
      | .ok (fs, r') => .ok (.obj fs, r')
      | .error msg => .error msg

mutual

/-- Modelled from the spec: the `Decode` half of the Document Codec, a
recursive-descent JSON parser.  The fuel bounds the nesting depth; callers
pass more fuel than the input length, which is always enough. -/
def parseValue : Nat → List Char → Except String (Json × List Char)
  | 0, _ => .error ("maximum nesting depth exceeded")
  | _ + 1, [] => .error ("unexpected end of input")
  | fuel + 1, c :: cs =>
    if c = '"' then parseStrTop (parseStrChars cs)
    else if c = '[' then parseArrBody (parseElems fuel) cs
    else if c = '\x7b' then parseObjBody (parseFields fuel) cs
    else if c = 'n' then parseLitNull cs
    else if c = 't' then parseLitTrue cs
    else if c = 'f' then parseLitFalse cs
    else if c = '-' ∨ c.isDigit then parseNum (c :: cs)
    else .error ("invalid character looking for beginning of value")

/-- Comma-separated array elements, consuming the closing bracket. -/
def parseElems : Nat → List Char → Except String (JsonList × List Char)
  | 0, _ => .error ("maximum nesting depth exceeded")
  | fuel + 1, cs =>
    match parseValue fuel (skipWs cs) with
    | .error msg => .error msg
    | .ok (v, r) =>
      match skipWs r with
      | [] => .error ("expected comma or closing bracket in array")
      | c :: r' =>
        if c = ',' then
          match parseElems fuel r' with
          | .ok (xs, r'') => .ok (.cons v xs, r'')
          | .error msg => .error msg
        else if c = ']' then .ok (.cons v .nil, r')
        else .error ("expected comma or closing bracket in array")

/-- Comma-separated object members, consuming the closing brace. -/
def parseFields : Nat → List Char → Except String (JsonFields × List Char)
  | 0, _ => .error ("maximum nesting depth exceeded")
  | fuel + 1, cs =>
    match skipWs cs with
    | [] => .error ("unexpected end of input in object")
    | c :: r =>
      if c = '"' then
        match parseStrChars r with
        | .error msg => .error msg
        | .ok (k, r1) =>
          match skipWs r1 with
          | [] => .error ("expected colon after object key")
          | c1 :: r2 =>
            if c1 = ':' then
              match parseValue fuel (skipWs r2) with
              | .error msg => .error msg
              | .ok (v, r3) =>
                match skipWs r3 with
                | [] => .error ("expected comma or closing brace in object")
                | c2 :: r4 =>
                  if c2 = ',' then
                    match parseFields fuel r4 with
                    | .ok (fs, r5) => .ok (.cons ⟨k⟩ v fs, r5)
                    | .error msg => .error msg
                  else if c2 = '\x7d' then .ok (.cons ⟨k⟩ v .nil, r4)
                  else .error ("expected comma or closing brace in object")
            else .error ("expected colon after object key")
      else .error ("expected string key in object")

end

/-- Modelled from the spec: `Decode(text) -> Value`; fails on text that is
not syntactically valid JSON, and rejects trailing non-whitespace. -/
def decodeJson (s : String) : Except String Json :=
  match parseValue (2 * s.length + 2) (skipWs s.data) with
  | .error msg => .error msg
  | .ok (v, rest) =>
    match skipWs rest with
    | [] => .ok v
    | _ => .error ("invalid character after top-level value")

/-- Errors surfaced by `Mask`: a wrapped `json.Unmarshal` failure, or a Go
runtime panic inside the walk (a panic aborts the program rather than being
returned, but is kept in the error channel here so the pipeline stays a
total function). -/
inductive MaskerError where
  | unmarshalFailed (cause : String)
  | panicked (p : GoPanic)

/-- `Mask` (`masker.go` lines 54-72): build the rule set, decode, walk from
the root path `$`, re-encode.  A decode failure is wrapped and returned
before any masking is attempted.  A null document root makes the walk
return the zero `reflect.Value`, which `json.Marshal` encodes as `{}`. -/
def Mask (m : masker) (input : String) (maskPaths : List String) :
    Except MaskerError String :=
  match decodeJson input with
  | .error e => .error (.unmarshalFailed e)
  | .ok v =>
    match maskWithPaths m maskPaths ("$") v with
    | (.error p, _) => .error (.panicked p)
    | (.ok (.json w), _) => .ok (encodeJson w)
    | (.ok .invalidValue, _) => .ok ("\x7b\x7d")

/-!
## Tree positions

Used to state which leaf of the input tree survives where in the output
tree, and which path string the walk synthesizes for a position.
-/

inductive Step where
  | field (k : String)
  | idx (i : Nat)
deriving DecidableEq

/-- Value of the tree at a position, descending through object fields and
array indices. -/
def getPath : Json → List Step → Option Json
  | v, [] => some v
  | .obj fs, .field k :: rest =>
    match JsonFields.find fs k with
    | some v' => getPath v' rest
    | none => none
  | .arr xs, .idx i :: rest =>
    match JsonList.get xs i with
    | some v' => getPath v' rest
    | none => none
  | _, _ :: _ => none

/-- The path string the walk synthesizes for a position, starting from
`root` (the incremental construction of `maskWithPaths`). -/
def stepsPath (root : String) : List Step → String
  | [] => root
  | .field k :: rest => stepsPath (root ++ "." ++ k) rest
  | .idx i :: rest => stepsPath (root ++ "[" ++ natToString i ++ "]") rest

/-- All prefixes of a list of steps (the position itself included). -/
def stepInits : List Step → List (List Step)
  | [] => [[]]
  | s :: rest => [] :: (stepInits rest).map (fun p => s :: p)

/-!
## Fuel accounting for the parser

`jfuelV v` is enough fuel for `parseValue` to parse the encoding of `v`;
it is bounded by the length of the encoding.
-/

mutual

def jfuelV : Json → Nat
  | .null => 1
  | .bool _ => 1
  | .num _ _ => 1
  | .str _ => 1
  | .arr xs => 2 + jfuelElems xs
  | .obj fs => 2 + jfuelFields fs

def jfuelElems : JsonList → Nat
  | .nil => 0
  | .cons x tl => 1 + jfuelV x + jfuelElems tl

def jfuelFields : JsonFields → Nat
  | .nil => 0
  | .cons _ v tl => 1 + jfuelV v + jfuelFields tl

end

/-- The tree produced by a successful walk of a node (projection used to
state field-by-field what the walk does to a container). -/
def walkVal (m : masker) (rules : List String) (p : String) (v : Json) : Json :=
  match (maskWithPaths m rules p v).1 with
  | .ok (.json w) => w
  | _ => v

/-- The per-entry transformation the walk applies to the value of an object
field or array element whose synthesized path is `cp`. -/
def childTransform (m : masker) (f : Json → String) (rules : List String) (cp : String) (v : Json) : Json :=
  if isMaskedPath cp rules then Json.str (f v) else walkVal m rules cp v

/-- No character that could extend a number literal follows: used to state
the parser/printer roundtrip (a printed number is only re-read correctly
when the context does not continue it, which holds at every position the
encoder emits one). -/
def numSafe : List Char → Bool
  | [] => true
  | c :: _ => !(c.isDigit || c = '.' || c = 'e' || c = 'E')

/-!
## Lemmas: path normalization
-/

theorem riGo_flush_if (c : Char) (cs : List Char) :
    (if c = '[' then riGo (some []) cs else c :: riGo none cs) = riGo none (c :: cs) := by
  simp [riGo]

theorem riGo_app_digits : ∀ (ds : List Char), (∀ c ∈ ds, c.isDigit = true) →
    ∀ (acc rest : List Char), riGo (some acc) (ds ++ rest) = riGo (some (ds.reverse ++ acc)) rest := by
  intro ds
  induction ds with
  | nil => intro _ acc rest; simp
  | cons d ds ih =>
    intro h acc rest
    have hd : d.isDigit = true := h d (by simp)
    have hds : ∀ c ∈ ds, c.isDigit = true := fun c hc => h c (by simp [hc])
    rw [List.cons_append,
      show riGo (some acc) (d :: (ds ++ rest)) = riGo (some (d :: acc)) (ds ++ rest) by
        simp [riGo, hd],
      ih hds (d :: acc) rest]
    congr 1
    simp

theorem hasIdxGo_app_digits : ∀ (ds : List Char), (∀ c ∈ ds, c.isDigit = true) →
    ∀ (seen : Bool) (rest : List Char),
      hasIdxGo (some seen) (ds ++ rest) = hasIdxGo (some (seen || !ds.isEmpty)) rest := by
  intro ds
  induction ds with
  | nil => intro _ seen rest; simp
  | cons d ds ih =>
    intro h seen rest
    have hd : d.isDigit = true := h d (by simp)
    have hds : ∀ c ∈ ds, c.isDigit = true := fun c hc => h c (by simp [hc])
    rw [List.cons_append,
      show hasIdxGo (some seen) (d :: (ds ++ rest)) = hasIdxGo (some true) (ds ++ rest) by
        simp [hasIdxGo, hd],
      ih hds true rest]
    simp

theorem takeDigits_append (l : List Char) : (takeDigits l).1 ++ (takeDigits l).2 = l := by
  induction l with
  | nil => simp [takeDigits]
  | cons c cs ih =>
    by_cases h : c.isDigit
    · simpa [takeDigits, h] using ih
    · simp [takeDigits, h]

theorem takeDigits_digits : ∀ (l : List Char), ∀ c ∈ (takeDigits l).1, c.isDigit = true := by
  intro l
  induction l with
  | nil => simp [takeDigits]
  | cons c cs ih =>
    by_cases h : c.isDigit
    · simpa [takeDigits, h] using ih
    · simp [takeDigits, h]

theorem takeDigits_head (l : List Char) (r : Char) (rs : List Char)
    (h : (takeDigits l).2 = r :: rs) : r.isDigit = false := by
  induction l with
  | nil => simp [takeDigits] at h
  | cons c cs ih =>
    by_cases hc : c.isDigit
    · simp [takeDigits, hc] at h
      exact ih h
    · simp [takeDigits, hc] at h
      rw [← h.1]
      simp [hc]

theorem riGo_some_head (zs : List Char) : ∀ ds : List Char, ∃ t, riGo (some ds) zs = '[' :: t := by
  induction zs with
  | nil => intro ds; exact ⟨ds.reverse, rfl⟩
  | cons c cs ih =>
    intro ds
    by_cases hd : c.isDigit
    · obtain ⟨t, ht⟩ := ih (c :: ds)
      exact ⟨t, by simp [riGo, hd, ht]⟩
    · by_cases hm : c = ']' ∧ ds ≠ []
      · exact ⟨']' :: riGo none cs, by simp [riGo, hd, hm]⟩
      · exact ⟨ds.reverse ++ (if c = '[' then riGo (some []) cs else c :: riGo none cs),
          by simp [riGo, hd, hm]⟩

theorem riGo_head (z : Char) (zs : List Char) : ∃ t, riGo none (z :: zs) = z :: t := by
  by_cases h : z = '['
  · subst h
    obtain ⟨t, ht⟩ := riGo_some_head zs []
    exact ⟨t, by simp [riGo, ht]⟩
  · exact ⟨riGo none zs, by simp [riGo, h]⟩

theorem riGo_group (ds l₂ : List Char) (hne : ds ≠ []) (hdig : ∀ c ∈ ds, c.isDigit = true) :
    riGo none ('[' :: (ds ++ ']' :: l₂)) = '[' :: ']' :: riGo none l₂ := by
  rw [show riGo none ('[' :: (ds ++ ']' :: l₂)) = riGo (some []) (ds ++ ']' :: l₂) by simp [riGo],
    riGo_app_digits ds hdig [] (']' :: l₂)]
  have hrev : ds.reverse ++ [] ≠ [] := by simp [hne]
  simp [riGo, hrev]

theorem digit_decomp (l : List Char) :
    ∃ es rest, l = es ++ rest ∧ (∀ c ∈ es, c.isDigit = true) ∧
      (rest = [] ∨ ∃ r rest', rest = r :: rest' ∧ r.isDigit = false) := by
  refine ⟨(takeDigits l).1, (takeDigits l).2, (takeDigits_append l).symm, takeDigits_digits l, ?_⟩
  cases h : (takeDigits l).2 with
  | nil => exact Or.inl rfl
  | cons r rest' => exact Or.inr ⟨r, rest', rfl, takeDigits_head l r rest' h⟩

theorem riGo_split_aux : ∀ (n : Nat) (l₁ : List Char), l₁.length ≤ n →
    ∀ (ds l₂ : List Char), ds ≠ [] → (∀ c ∈ ds, c.isDigit = true) →
    riGo none (l₁ ++ '[' :: (ds ++ ']' :: l₂)) = riGo none l₁ ++ '[' :: ']' :: riGo none l₂ := by
  intro n
  induction n with
  | zero =>
    intro l₁ hl ds l₂ hne hdig
    have : l₁ = [] := List.eq_nil_of_length_eq_zero (Nat.le_zero.mp hl)
    subst this
    simpa using riGo_group ds l₂ hne hdig
  | succ n ih =>
    intro l₁ hl ds l₂ hne hdig
    match l₁ with
    | [] => simpa using riGo_group ds l₂ hne hdig
    | c :: l₁' =>
      by_cases hc : c = '['
      · subst hc
        obtain ⟨es, rest, hsplit, hdigits, hcase⟩ := digit_decomp l₁'
        subst hsplit
        have step1 : ∀ X : List Char, riGo none ('[' :: (es ++ X)) = riGo (some es.reverse) X := by
          intro X
          rw [show riGo none ('[' :: (es ++ X)) = riGo (some []) (es ++ X) by simp [riGo],
            riGo_app_digits es hdigits [] X]
          simp
        rcases hcase with hrnil | ⟨r, rest', hrc, hrd⟩
        · subst hrnil
          rw [show ('[' :: (es ++ [])) ++ '[' :: (ds ++ ']' :: l₂)
              = '[' :: (es ++ '[' :: (ds ++ ']' :: l₂)) by simp]
          rw [step1 ('[' :: (ds ++ ']' :: l₂))]
          have hlb : ('[' : Char).isDigit = false := by decide
          rw [show riGo (some es.reverse) ('[' :: (ds ++ ']' :: l₂))
              = '[' :: es.reverse.reverse ++ riGo none ('[' :: (ds ++ ']' :: l₂)) by
            rw [← riGo_flush_if]
            simp [riGo, hlb]]
          rw [riGo_group ds l₂ hne hdig]
          rw [show riGo none ('[' :: (es ++ [])) = riGo (some es.reverse) [] by
            exact step1 []]
          simp [riGo]
        · subst hrc
          have hlen : rest'.length + 1 ≤ n := by
            have : ('[' :: (es ++ r :: rest')).length ≤ n + 1 := hl
            simp [List.length_append] at this
            omega
          by_cases hm : r = ']' ∧ es ≠ []
          · obtain ⟨hm1, hm2⟩ := hm
            subst hm1
            rw [show ('[' :: (es ++ ']' :: rest')) ++ '[' :: (ds ++ ']' :: l₂)
                = '[' :: (es ++ ']' :: (rest' ++ '[' :: (ds ++ ']' :: l₂))) by simp]
            rw [step1 (']' :: (rest' ++ '[' :: (ds ++ ']' :: l₂)))]
            have hrevne : es.reverse ≠ [] := by simpa using hm2
            have hjd : (']' : Char).isDigit = false := by decide
            rw [show riGo (some es.reverse) (']' :: (rest' ++ '[' :: (ds ++ ']' :: l₂)))
                = '[' :: ']' :: riGo none (rest' ++ '[' :: (ds ++ ']' :: l₂)) by
              simp [riGo, hjd, hrevne]]
            rw [ih rest' (by omega) ds l₂ hne hdig]
            rw [show riGo none ('[' :: (es ++ ']' :: rest'))
                = riGo (some es.reverse) (']' :: rest') by exact step1 (']' :: rest')]
            rw [show riGo (some es.reverse) (']' :: rest') = '[' :: ']' :: riGo none rest' by
              simp [riGo, hjd, hrevne]]
            simp
          · rw [show ('[' :: (es ++ r :: rest')) ++ '[' :: (ds ++ ']' :: l₂)
                = '[' :: (es ++ r :: (rest' ++ '[' :: (ds ++ ']' :: l₂))) by simp]
            rw [step1 (r :: (rest' ++ '[' :: (ds ++ ']' :: l₂)))]
            have hcond : ¬(r = ']' ∧ es.reverse ≠ []) := fun h => hm ⟨h.1, by simpa using h.2⟩
            rw [show riGo (some es.reverse) (r :: (rest' ++ '[' :: (ds ++ ']' :: l₂)))
                = '[' :: es.reverse.reverse ++ riGo none (r :: (rest' ++ '[' :: (ds ++ ']' :: l₂))) by
              rw [← riGo_flush_if]
              simp only [riGo]
              rw [if_neg (by simp [hrd]), if_neg hcond]]
            rw [show r :: (rest' ++ '[' :: (ds ++ ']' :: l₂))
                = (r :: rest') ++ '[' :: (ds ++ ']' :: l₂) by simp]
            rw [ih (r :: rest') (by simpa using hlen) ds l₂ hne hdig]
            rw [show riGo none ('[' :: (es ++ r :: rest'))
                = riGo (some es.reverse) (r :: rest') by exact step1 (r :: rest')]
            rw [show riGo (some es.reverse) (r :: rest')
                = '[' :: es.reverse.reverse ++ riGo none (r :: rest') by
              rw [← riGo_flush_if]
              simp only [riGo]
              rw [if_neg (by simp [hrd]), if_neg hcond]]
            simp
      · rw [show (c :: l₁') ++ '[' :: (ds ++ ']' :: l₂) = c :: (l₁' ++ '[' :: (ds ++ ']' :: l₂)) by simp,
          show riGo none (c :: (l₁' ++ '[' :: (ds ++ ']' :: l₂)))
            = c :: riGo none (l₁' ++ '[' :: (ds ++ ']' :: l₂)) by simp [riGo, hc],
          ih l₁' (Nat.le_of_succ_le_succ hl) ds l₂ hne hdig,
          show riGo none (c :: l₁') = c :: riGo none l₁' by simp [riGo, hc]]
        simp

theorem hasIdxGo_next_if (c : Char) (cs : List Char) :
    (if c = '[' then hasIdxGo (some false) cs else hasIdxGo none cs) = hasIdxGo none (c :: cs) := by
  simp [hasIdxGo]

theorem riGo_enter (es : List Char) (hdigits : ∀ c ∈ es, c.isDigit = true) (X : List Char) :
    riGo none ('[' :: (es ++ X)) = riGo (some es.reverse) X := by
  rw [show riGo none ('[' :: (es ++ X)) = riGo (some []) (es ++ X) by simp [riGo],
    riGo_app_digits es hdigits [] X]
  simp

theorem riGo_matchCase (ds : List Char) (hne : ds ≠ []) (X : List Char) :
    riGo (some ds) (']' :: X) = '[' :: ']' :: riGo none X := by
  simp only [riGo]
  rw [if_neg (by decide), if_pos (by exact ⟨trivial, hne⟩)]

theorem riGo_flushCase (ds : List Char) (r : Char) (hrd : r.isDigit = false)
    (hcond : ¬(r = ']' ∧ ds ≠ [])) (X : List Char) :
    riGo (some ds) (r :: X) = '[' :: ds.reverse ++ riGo none (r :: X) := by
  rw [← riGo_flush_if]
  simp only [riGo]
  rw [if_neg (by simp [hrd]), if_neg hcond]

theorem hasIdx_enter (es : List Char) (hdigits : ∀ c ∈ es, c.isDigit = true) (X : List Char) :
    hasIdxGo none ('[' :: (es ++ X)) = hasIdxGo (some (!es.isEmpty)) X := by
  rw [show hasIdxGo none ('[' :: (es ++ X)) = hasIdxGo (some false) (es ++ X) by simp [hasIdxGo],
    hasIdxGo_app_digits es hdigits false X]
  simp

theorem hasIdx_matchCase (X : List Char) : hasIdxGo (some true) (']' :: X) = true := by
  simp only [hasIdxGo]
  rw [if_neg (by decide), if_pos (by exact ⟨trivial, trivial⟩)]

theorem hasIdx_stepCase (seen : Bool) (r : Char) (hrd : r.isDigit = false)
    (hcond : ¬(r = ']' ∧ seen = true)) (X : List Char) :
    hasIdxGo (some seen) (r :: X) = hasIdxGo none (r :: X) := by
  rw [← hasIdxGo_next_if]
  simp only [hasIdxGo]
  rw [if_neg (by simp [hrd]), if_neg hcond]

theorem riGo_id_of_noIdx : ∀ (n : Nat) (l : List Char), l.length ≤ n →
    hasIdxGo none l = false → riGo none l = l := by
  intro n
  induction n with
  | zero =>
    intro l hl _
    have : l = [] := List.eq_nil_of_length_eq_zero (Nat.le_zero.mp hl)
    subst this
    rfl
  | succ n ih =>
    intro l hl hni
    match l with
    | [] => rfl
    | c :: l' =>
      by_cases hc : c = '['
      · subst hc
        obtain ⟨es, rest, hsplit, hdigits, hcase⟩ := digit_decomp l'
        subst hsplit
        rcases hcase with hrnil | ⟨r, rest', hrc, hrd⟩
        · subst hrnil
          rw [riGo_enter es hdigits []]
          simp [riGo]
        · subst hrc
          have hlen : rest'.length + 1 ≤ n := by
            have h2 : ('[' :: (es ++ r :: rest')).length ≤ n + 1 := hl
            simp [List.length_append] at h2
            omega
          rw [hasIdx_enter es hdigits (r :: rest')] at hni
          by_cases hm : r = ']' ∧ es ≠ []
          · exfalso
            obtain ⟨hm1, hm2⟩ := hm
            subst hm1
            rw [show (!es.isEmpty) = true by simpa [List.isEmpty_iff] using hm2,
              hasIdx_matchCase rest'] at hni
            exact Bool.noConfusion hni
          · have hcond : ¬(r = ']' ∧ (!es.isEmpty) = true) := by
              intro h
              exact hm ⟨h.1, by intro he; rw [he] at h; simp at h⟩
            have hcond2 : ¬(r = ']' ∧ es.reverse ≠ []) := by
              intro h
              exact hm ⟨h.1, by intro he; rw [he] at h; simp at h⟩
            rw [hasIdx_stepCase _ r hrd hcond rest'] at hni
            rw [riGo_enter es hdigits (r :: rest'), riGo_flushCase es.reverse r hrd hcond2 rest',
              ih (r :: rest') (by simpa using hlen) hni]
            simp
      · have hni' : hasIdxGo none l' = false := by
          rw [show hasIdxGo none (c :: l') = hasIdxGo none l' by simp [hasIdxGo, hc]] at hni
          exact hni
        rw [show riGo none (c :: l') = c :: riGo none l' by simp [riGo, hc],
          ih l' (Nat.le_of_succ_le_succ hl) hni']

theorem riGo_noMatch : ∀ (n : Nat) (l : List Char), l.length ≤ n →
    hasIdxGo none (riGo none l) = false := by
  intro n
  induction n with
  | zero =>
    intro l hl
    have : l = [] := List.eq_nil_of_length_eq_zero (Nat.le_zero.mp hl)
    subst this
    rfl
  | succ n ih =>
    intro l hl
    match l with
    | [] => rfl
    | c :: l' =>
      by_cases hc : c = '['
      · subst hc
        obtain ⟨es, rest, hsplit, hdigits, hcase⟩ := digit_decomp l'
        subst hsplit
        rcases hcase with hrnil | ⟨r, rest', hrc, hrd⟩
        · subst hrnil
          rw [riGo_enter es hdigits [],
            show riGo (some es.reverse) [] = '[' :: es.reverse.reverse from rfl,
            show ('[' : Char) :: es.reverse.reverse = '[' :: (es.reverse.reverse ++ []) by simp,
            hasIdx_enter es.reverse.reverse (by simpa using hdigits) []]
          rfl
        · subst hrc
          have hlen : rest'.length + 1 ≤ n := by
            have h2 : ('[' :: (es ++ r :: rest')).length ≤ n + 1 := hl
            simp [List.length_append] at h2
            omega
          rw [riGo_enter es hdigits (r :: rest')]
          by_cases hm : r = ']' ∧ es ≠ []
          · obtain ⟨hm1, hm2⟩ := hm
            subst hm1
            rw [riGo_matchCase es.reverse (by simpa using hm2) rest',
              show hasIdxGo none ('[' :: ']' :: riGo none rest')
                = hasIdxGo none (riGo none rest') by simp [hasIdxGo]]
            exact ih rest' (by omega)
          · have hcond2 : ¬(r = ']' ∧ es.reverse ≠ []) := by
              intro h
              exact hm ⟨h.1, by intro he; rw [he] at h; simp at h⟩
            have hcond3 : ¬(r = ']' ∧ (!es.isEmpty) = true) := by
              intro h
              exact hm ⟨h.1, by intro he; rw [he] at h; simp at h⟩
            rw [riGo_flushCase es.reverse r hrd hcond2 rest',
              show '[' :: es.reverse.reverse ++ riGo none (r :: rest')
                = '[' :: (es ++ riGo none (r :: rest')) by simp,
              hasIdx_enter es hdigits (riGo none (r :: rest'))]
            obtain ⟨t, ht⟩ := riGo_head r rest'
            rw [ht, hasIdx_stepCase _ r hrd hcond3 t, ← ht]
            exact ih (r :: rest') (by simpa using hlen)
      · rw [show riGo none (c :: l') = c :: riGo none l' by simp [riGo, hc],
          show hasIdxGo none (c :: riGo none l') = hasIdxGo none (riGo none l') by
            simp [hasIdxGo, hc]]
        exact ih l' (Nat.le_of_succ_le_succ hl)

theorem strEq (s t : String) (h : s.data = t.data) : s = t := by
  cases s
  cases t
  exact congrArg String.mk h

theorem strMk_append (a b : List Char) : ((⟨a⟩ : String) ++ ⟨b⟩) = ⟨a ++ b⟩ := rfl

theorem digitChar_isDigit (k : Nat) (h : k < 10) : (digitChar k).isDigit = true := by
  interval_cases k <;> decide

theorem natToCharsAux_digits : ∀ (fuel n : Nat), ∀ c ∈ natToCharsAux fuel n, c.isDigit = true := by
  intro fuel
  induction fuel with
  | zero => intro n c hc; simp [natToCharsAux] at hc
  | succ fuel ih =>
    intro n c hc
    by_cases h : n < 10
    · simp [natToCharsAux, h] at hc
      subst hc
      exact digitChar_isDigit n h
    · simp [natToCharsAux, h] at hc
      rcases hc with hc | hc
      · exact ih (n / 10) c hc
      · subst hc
        exact digitChar_isDigit (n % 10) (Nat.mod_lt n (by omega))

theorem natToChars_digits (n : Nat) : ∀ c ∈ natToChars n, c.isDigit = true :=
  natToCharsAux_digits (n + 1) n

theorem natToChars_ne_nil (n : Nat) : natToChars n ≠ [] := by
  unfold natToChars natToCharsAux
  by_cases h : n < 10 <;> simp [h]

/-- Collapsing a single bracketed index: the core of array-index
normalization, at the string level. -/
theorem normalizePath_split (s₁ idx s₂ : String) (hne : idx.data ≠ [])
    (hdig : ∀ c ∈ idx.data, c.isDigit = true) :
    normalizePath (s₁ ++ "[" ++ idx ++ "]" ++ s₂) = normalizePath s₁ ++ "[]" ++ normalizePath s₂ := by
  apply strEq
  have hdata : (s₁ ++ "[" ++ idx ++ "]" ++ s₂).data
      = s₁.data ++ '[' :: (idx.data ++ ']' :: s₂.data) := by
    simp [String.data_append]
  show riGo none (s₁ ++ "[" ++ idx ++ "]" ++ s₂).data = _
  rw [hdata, riGo_split_aux (s₁.data.length) s₁.data (Nat.le_refl _) idx.data s₂.data hne hdig]
  simp [normalizePath, String.data_append]

/-- Normalization of a concrete array-element path: the `[i]` appended by the
walk collapses to `[]`. -/
theorem normalizePath_index (p : String) (i : Nat) :
    normalizePath (p ++ "[" ++ natToString i ++ "]") = normalizePath p ++ "[]" := by
  have h := normalizePath_split p (natToString i) "" (natToChars_ne_nil i) (natToChars_digits i)
  rw [show (p ++ "[" ++ natToString i ++ "]" ++ "" : String) = p ++ "[" ++ natToString i ++ "]" by
      apply strEq; simp [String.data_append]] at h
  rw [h, show normalizePath ("") = "" from rfl]
  apply strEq
  simp [String.data_append]

/-- A path without bracketed indices normalizes to itself. -/
theorem normalizePath_id (s : String) (h : hasBracketedIndex s = false) :
    normalizePath s = s := by
  apply strEq
  exact riGo_id_of_noIdx s.data.length s.data (Nat.le_refl _) h

/-- Normalization never leaves a bracketed index behind. -/
theorem normalizePath_noIdx (s : String) : hasBracketedIndex (normalizePath s) = false :=
  riGo_noMatch s.data.length s.data (Nat.le_refl _)

/-- Normalization is idempotent. -/
theorem normalizePath_idem (p : String) : normalizePath (normalizePath p) = normalizePath p :=
  normalizePath_id (normalizePath p) (normalizePath_noIdx p)

/-!
## Lemmas: the tree walk
-/

theorem isMaskedPath_nil (p : String) : isMaskedPath p [] = false := rfl

theorem maskWithPaths_null (m : masker) (rules : List String) (p : String) :
    maskWithPaths m rules p .null = (.ok .invalidValue, [.processing p]) := by
  simp [maskWithPaths]

theorem maskWithPaths_masked (m : masker) (rules : List String) (p : String) (v : Json)
    (f : Json → String) (hf : m.maskFunc = some f)
    (hmem : isMaskedPath p rules = true) (hv : v ≠ Json.null) :
    maskWithPaths m rules p v = (.ok (.json (.str (f v))), [.processing p, .masking p]) := by
  cases v with
  | null => exact absurd rfl hv
  | bool b => simp [maskWithPaths, hmem, hf]
  | num a b => simp [maskWithPaths, hmem, hf]
  | str s => simp [maskWithPaths, hmem, hf]
  | arr xs => simp [maskWithPaths, hmem, hf]
  | obj fs => simp [maskWithPaths, hmem, hf]

theorem maskWithPaths_masked_none (m : masker) (rules : List String) (p : String) (v : Json)
    (hf : m.maskFunc = none) (hmem : isMaskedPath p rules = true) (hv : v ≠ Json.null) :
    maskWithPaths m rules p v = (.error .nilMaskFunc, [.processing p, .masking p]) := by
  cases v with
  | null => exact absurd rfl hv
  | bool b => simp [maskWithPaths, hmem, hf]
  | num a b => simp [maskWithPaths, hmem, hf]
  | str s => simp [maskWithPaths, hmem, hf]
  | arr xs => simp [maskWithPaths, hmem, hf]
  | obj fs => simp [maskWithPaths, hmem, hf]

theorem maskWithPaths_masked_trace (m : masker) (rules : List String) (p : String) (v : Json)
    (hmem : isMaskedPath p rules = true) (hv : v ≠ Json.null) :
    (maskWithPaths m rules p v).2 = [.processing p, .masking p] := by
  cases hm : m.maskFunc with
  | none => rw [maskWithPaths_masked_none m rules p v hm hmem hv]
  | some f => rw [maskWithPaths_masked m rules p v f hm hmem hv]

theorem maskWithPaths_scalar (m : masker) (rules : List String) (p : String) (v : Json)
    (hmem : isMaskedPath p rules = false) (hs : isScalar v = true) :
    maskWithPaths m rules p v = (.ok (.json v), [.processing p]) := by
  cases v with
  | null => simp [isScalar] at hs
  | bool b => simp [maskWithPaths, hmem]
  | num a b => simp [maskWithPaths, hmem]
  | str s => simp [maskWithPaths, hmem]
  | arr xs => simp [isScalar] at hs
  | obj fs => simp [isScalar] at hs

theorem maskWithPaths_obj_ok (m : masker) (rules : List String) (p : String) (fs gs : JsonFields)
    (tr : List LogEvent) (hmem : isMaskedPath p rules = false)
    (h : maskFields m rules p fs = (.ok gs, tr)) :
    maskWithPaths m rules p (.obj fs) = (.ok (.json (.obj gs)), .processing p :: tr) := by
  simp [maskWithPaths, hmem, h]

theorem maskWithPaths_obj_err (m : masker) (rules : List String) (p : String) (fs : JsonFields)
    (e : GoPanic) (tr : List LogEvent) (hmem : isMaskedPath p rules = false)
    (h : maskFields m rules p fs = (.error e, tr)) :
    maskWithPaths m rules p (.obj fs) = (.error e, .processing p :: tr) := by
  simp [maskWithPaths, hmem, h]

theorem maskWithPaths_arr_ok (m : masker) (rules : List String) (p : String) (xs ys : JsonList)
    (tr : List LogEvent) (hmem : isMaskedPath p rules = false)
    (h : maskElems m rules p 0 xs = (.ok ys, tr)) :
    maskWithPaths m rules p (.arr xs) = (.ok (.json (.arr ys)), .processing p :: tr) := by
  simp [maskWithPaths, hmem, h]

theorem maskWithPaths_arr_err (m : masker) (rules : List String) (p : String) (xs : JsonList)
    (e : GoPanic) (tr : List LogEvent) (hmem : isMaskedPath p rules = false)
    (h : maskElems m rules p 0 xs = (.error e, tr)) :
    maskWithPaths m rules p (.arr xs) = (.error e, .processing p :: tr) := by
  simp [maskWithPaths, hmem, h]

theorem maskFields_nil (m : masker) (rules : List String) (p : String) :
    maskFields m rules p .nil = (.ok .nil, []) := by
  simp [maskFields]

theorem maskFields_cons_masked (m : masker) (rules : List String) (p k : String) (v : Json)
    (tl gs : JsonFields) (tr : List LogEvent) (f : Json → String)
    (hf : m.maskFunc = some f) (hmem : isMaskedPath (p ++ "." ++ k) rules = true)
    (htl : maskFields m rules p tl = (.ok gs, tr)) :
    maskFields m rules p (.cons k v tl)
      = (.ok (.cons k (.str (f v)) gs),
         .processing (p ++ "." ++ k) :: .masking (p ++ "." ++ k) :: tr) := by
  cases v <;> simp [maskFields, hmem, hf, htl]

theorem maskFields_cons_masked_tailerr (m : masker) (rules : List String) (p k : String) (v : Json)
    (tl : JsonFields) (e : GoPanic) (tr : List LogEvent) (f : Json → String)
    (hf : m.maskFunc = some f) (hmem : isMaskedPath (p ++ "." ++ k) rules = true)
    (htl : maskFields m rules p tl = (.error e, tr)) :
    maskFields m rules p (.cons k v tl)
      = (.error e, .processing (p ++ "." ++ k) :: .masking (p ++ "." ++ k) :: tr) := by
  cases v <;> simp [maskFields, hmem, hf, htl]

theorem maskFields_cons_masked_none (m : masker) (rules : List String) (p k : String) (v : Json)
    (tl : JsonFields) (hf : m.maskFunc = none) (hmem : isMaskedPath (p ++ "." ++ k) rules = true) :
    maskFields m rules p (.cons k v tl)
      = (.error .nilMaskFunc, [.processing (p ++ "." ++ k), .masking (p ++ "." ++ k)]) := by
  cases v <;> simp [maskFields, hmem, hf]

theorem maskFields_cons_null (m : masker) (rules : List String) (p k : String)
    (tl : JsonFields) (rt : Except GoPanic JsonFields) (tr : List LogEvent)
    (hmem : isMaskedPath (p ++ "." ++ k) rules = false)
    (htl : maskFields m rules p tl = (rt, tr)) :
    maskFields m rules p (.cons k .null tl) = (rt, .processing (p ++ "." ++ k) :: tr) := by
  simp [maskFields, hmem, htl]

theorem maskFields_cons_ok (m : masker) (rules : List String) (p k : String) (v w : Json)
    (tl gs : JsonFields) (trc tr : List LogEvent)
    (hmem : isMaskedPath (p ++ "." ++ k) rules = false) (hv : v ≠ Json.null)
    (hchild : maskWithPaths m rules (p ++ "." ++ k) v = (.ok (.json w), trc))
    (htl : maskFields m rules p tl = (.ok gs, tr)) :
    maskFields m rules p (.cons k v tl)
      = (.ok (.cons k w gs), .processing (p ++ "." ++ k) :: (trc ++ tr)) := by
  cases v
  case null => exact absurd rfl hv
  all_goals simp [maskFields, hmem, hchild, htl]

theorem maskFields_cons_oktailerr (m : masker) (rules : List String) (p k : String) (v w : Json)
    (tl : JsonFields) (e : GoPanic) (trc tr : List LogEvent)
    (hmem : isMaskedPath (p ++ "." ++ k) rules = false) (hv : v ≠ Json.null)
    (hchild : maskWithPaths m rules (p ++ "." ++ k) v = (.ok (.json w), trc))
    (htl : maskFields m rules p tl = (.error e, tr)) :
    maskFields m rules p (.cons k v tl)
      = (.error e, .processing (p ++ "." ++ k) :: (trc ++ tr)) := by
  cases v
  case null => exact absurd rfl hv
  all_goals simp [maskFields, hmem, hchild, htl]

theorem maskFields_cons_childerr (m : masker) (rules : List String) (p k : String) (v : Json)
    (tl : JsonFields) (e : GoPanic) (trc : List LogEvent)
    (hmem : isMaskedPath (p ++ "." ++ k) rules = false) (hv : v ≠ Json.null)
    (hchild : maskWithPaths m rules (p ++ "." ++ k) v = (.error e, trc)) :
    maskFields m rules p (.cons k v tl) = (.error e, .processing (p ++ "." ++ k) :: trc) := by
  cases v
  case null => exact absurd rfl hv
  all_goals simp [maskFields, hmem, hchild]

theorem maskFields_cons_trace_ok (m : masker) (rules : List String) (p k : String) (v : Json)
    (gv : GoVal) (tl : JsonFields) (rt : Except GoPanic JsonFields) (trc tr : List LogEvent)
    (hmem : isMaskedPath (p ++ "." ++ k) rules = false) (hv : v ≠ Json.null)
    (hchild : maskWithPaths m rules (p ++ "." ++ k) v = (.ok gv, trc))
    (htl : maskFields m rules p tl = (rt, tr)) :
    (maskFields m rules p (.cons k v tl)).2 = .processing (p ++ "." ++ k) :: (trc ++ tr) := by
  cases v
  case null => exact absurd rfl hv
  all_goals cases gv <;> cases rt <;> simp [maskFields, hmem, hchild, htl]

theorem maskElems_nil (m : masker) (rules : List String) (p : String) (i : Nat) :
    maskElems m rules p i .nil = (.ok .nil, []) := by
  simp [maskElems]

theorem maskElems_cons_masked (m : masker) (rules : List String) (p : String) (i : Nat) (v : Json)
    (tl ys : JsonList) (tr : List LogEvent) (f : Json → String)
    (hf : m.maskFunc = some f)
    (hmem : isMaskedPath (p ++ "[" ++ natToString i ++ "]") rules = true)
    (htl : maskElems m rules p (i + 1) tl = (.ok ys, tr)) :
    maskElems m rules p i (.cons v tl)
      = (.ok (.cons (.str (f v)) ys),
         .processing (p ++ "[" ++ natToString i ++ "]")
           :: .masking (p ++ "[" ++ natToString i ++ "]") :: tr) := by
  cases v <;> simp [maskElems, hmem, hf, htl]

theorem maskElems_cons_masked_tailerr (m : masker) (rules : List String) (p : String) (i : Nat)
    (v : Json) (tl : JsonList) (e : GoPanic) (tr : List LogEvent) (f : Json → String)
    (hf : m.maskFunc = some f)
    (hmem : isMaskedPath (p ++ "[" ++ natToString i ++ "]") rules = true)
    (htl : maskElems m rules p (i + 1) tl = (.error e, tr)) :
    maskElems m rules p i (.cons v tl)
      = (.error e, .processing (p ++ "[" ++ natToString i ++ "]")
          :: .masking (p ++ "[" ++ natToString i ++ "]") :: tr) := by
  cases v <;> simp [maskElems, hmem, hf, htl]

theorem maskElems_cons_masked_none (m : masker) (rules : List String) (p : String) (i : Nat)
    (v : Json) (tl : JsonList) (hf : m.maskFunc = none)
    (hmem : isMaskedPath (p ++ "[" ++ natToString i ++ "]") rules = true) :
    maskElems m rules p i (.cons v tl)
      = (.error .nilMaskFunc,
         [.processing (p ++ "[" ++ natToString i ++ "]"),
          .masking (p ++ "[" ++ natToString i ++ "]")]) := by
  cases v <;> simp [maskElems, hmem, hf]

theorem maskElems_cons_null (m : masker) (rules : List String) (p : String) (i : Nat)
    (tl : JsonList) (hmem : isMaskedPath (p ++ "[" ++ natToString i ++ "]") rules = false) :
    maskElems m rules p i (.cons .null tl)
      = (.error .setZeroValue, [.processing (p ++ "[" ++ natToString i ++ "]")]) := by
  simp [maskElems, hmem]

theorem maskElems_cons_ok (m : masker) (rules : List String) (p : String) (i : Nat) (v w : Json)
    (tl ys : JsonList) (trc tr : List LogEvent)
    (hmem : isMaskedPath (p ++ "[" ++ natToString i ++ "]") rules = false) (hv : v ≠ Json.null)
    (hchild : maskWithPaths m rules (p ++ "[" ++ natToString i ++ "]") v = (.ok (.json w), trc))
    (htl : maskElems m rules p (i + 1) tl = (.ok ys, tr)) :
    maskElems m rules p i (.cons v tl)
      = (.ok (.cons w ys), .processing (p ++ "[" ++ natToString i ++ "]") :: (trc ++ tr)) := by
  cases v
  case null => exact absurd rfl hv
  all_goals simp [maskElems, hmem, hchild, htl]

theorem maskElems_cons_oktailerr (m : masker) (rules : List String) (p : String) (i : Nat)
    (v w : Json) (tl : JsonList) (e : GoPanic) (trc tr : List LogEvent)
    (hmem : isMaskedPath (p ++ "[" ++ natToString i ++ "]") rules = false) (hv : v ≠ Json.null)
    (hchild : maskWithPaths m rules (p ++ "[" ++ natToString i ++ "]") v = (.ok (.json w), trc))
    (htl : maskElems m rules p (i + 1) tl = (.error e, tr)) :
    maskElems m rules p i (.cons v tl)
      = (.error e, .processing (p ++ "[" ++ natToString i ++ "]") :: (trc ++ tr)) := by
  cases v
  case null => exact absurd rfl hv
  all_goals simp [maskElems, hmem, hchild, htl]

theorem maskElems_cons_childerr (m : masker) (rules : List String) (p : String) (i : Nat)
    (v : Json) (tl : JsonList) (e : GoPanic) (trc : List LogEvent)
    (hmem : isMaskedPath (p ++ "[" ++ natToString i ++ "]") rules = false) (hv : v ≠ Json.null)
    (hchild : maskWithPaths m rules (p ++ "[" ++ natToString i ++ "]") v = (.error e, trc)) :
    maskElems m rules p i (.cons v tl)
      = (.error e, .processing (p ++ "[" ++ natToString i ++ "]") :: trc) := by
  cases v
  case null => exact absurd rfl hv
  all_goals simp [maskElems, hmem, hchild]

theorem maskElems_cons_trace_ok (m : masker) (rules : List String) (p : String) (i : Nat)
    (v : Json) (gv : GoVal) (tl : JsonList) (rt : Except GoPanic JsonList) (trc tr : List LogEvent)
    (hmem : isMaskedPath (p ++ "[" ++ natToString i ++ "]") rules = false) (hv : v ≠ Json.null)
    (hchild : maskWithPaths m rules (p ++ "[" ++ natToString i ++ "]") v = (.ok gv, trc))
    (htl : maskElems m rules p (i + 1) tl = (rt, tr)) :
    (maskElems m rules p i (.cons v tl)).2
      = .processing (p ++ "[" ++ natToString i ++ "]") :: (trc ++ tr) := by
  cases v
  case null => exact absurd rfl hv
  all_goals cases gv <;> cases rt <;> simp [maskElems, hmem, hchild, htl]

theorem strLen_fieldPath (p k : String) : p.length < (p ++ "." ++ k).length := by
  rw [String.length_append, String.length_append, show ("." : String).length = 1 from rfl]
  omega

theorem strLen_idxPath (p s : String) : p.length < (p ++ "[" ++ s ++ "]").length := by
  rw [String.length_append, String.length_append, String.length_append,
    show ("[" : String).length = 1 from rfl, show ("]" : String).length = 1 from rfl]
  omega

theorem bool_false_of_not_true {b : Bool} (h : ¬b = true) : b = false := by
  cases b
  · rfl
  · exact absurd rfl h

theorem traceInv_masked_aux (m : masker) (rules : List String) (p : String) (v : Json)
    (hv : v ≠ Json.null) (hmem : isMaskedPath p rules = true) (e : LogEvent)
    (he : e ∈ (maskWithPaths m rules p v).2) :
    e.path = p ∧ (e = .masking p → isMaskedPath p rules = true) := by
  rw [maskWithPaths_masked_trace m rules p v hmem hv] at he
  simp at he
  rcases he with he | he <;> subst he
  · exact ⟨rfl, fun h => LogEvent.noConfusion h⟩
  · exact ⟨rfl, fun _ => hmem⟩

theorem traceInv_scalar_aux (m : masker) (rules : List String) (p : String) (v : Json)
    (hmem : isMaskedPath p rules = false) (hs : isScalar v = true) (e : LogEvent)
    (he : e ∈ (maskWithPaths m rules p v).2) :
    e.path = p ∧ (e = .masking p → isMaskedPath p rules = true) := by
  rw [maskWithPaths_scalar m rules p v hmem hs] at he
  simp at he
  subst he
  exact ⟨rfl, fun h => LogEvent.noConfusion h⟩

mutual

theorem traceInv_v : ∀ (m : masker) (rules : List String) (p : String) (v : Json)
    (e : LogEvent), e ∈ (maskWithPaths m rules p v).2 →
    (e.path = p ∧ (e = .masking p → isMaskedPath p rules = true)) ∨ p.length < e.path.length
  | m, rules, p, .null, e, he => by
    rw [maskWithPaths_null] at he
    simp at he
    subst he
    exact Or.inl ⟨rfl, fun h => LogEvent.noConfusion h⟩
  | m, rules, p, .bool b, e, he => by
    by_cases hmem : isMaskedPath p rules = true
    · exact Or.inl (traceInv_masked_aux m rules p _ (fun h => Json.noConfusion h) hmem e he)
    · exact Or.inl (traceInv_scalar_aux m rules p (.bool b) (bool_false_of_not_true hmem) rfl e he)
  | m, rules, p, .num a b, e, he => by
    by_cases hmem : isMaskedPath p rules = true
    · exact Or.inl (traceInv_masked_aux m rules p _ (fun h => Json.noConfusion h) hmem e he)
    · exact Or.inl (traceInv_scalar_aux m rules p (.num a b) (bool_false_of_not_true hmem) rfl e he)
  | m, rules, p, .str s, e, he => by
    by_cases hmem : isMaskedPath p rules = true
    · exact Or.inl (traceInv_masked_aux m rules p _ (fun h => Json.noConfusion h) hmem e he)
    · exact Or.inl (traceInv_scalar_aux m rules p (.str s) (bool_false_of_not_true hmem) rfl e he)
  | m, rules, p, .arr xs, e, he => by
    by_cases hmem : isMaskedPath p rules = true
    · exact Or.inl (traceInv_masked_aux m rules p _ (fun h => Json.noConfusion h) hmem e he)
    · have hmem' : isMaskedPath p rules = false := bool_false_of_not_true hmem
      rcases hres : maskElems m rules p 0 xs with ⟨rt, tr⟩
      cases rt with
      | ok ys =>
        rw [maskWithPaths_arr_ok m rules p xs ys tr hmem' hres] at he
        simp at he
        rcases he with he | he
        · subst he
          exact Or.inl ⟨rfl, fun h => LogEvent.noConfusion h⟩
        · exact Or.inr (traceInv_elems m rules p 0 xs e (by rw [hres]; simpa using he))
      | error er =>
        rw [maskWithPaths_arr_err m rules p xs er tr hmem' hres] at he
        simp at he
        rcases he with he | he
        · subst he
          exact Or.inl ⟨rfl, fun h => LogEvent.noConfusion h⟩
        · exact Or.inr (traceInv_elems m rules p 0 xs e (by rw [hres]; simpa using he))
  | m, rules, p, .obj fs, e, he => by
    by_cases hmem : isMaskedPath p rules = true
    · exact Or.inl (traceInv_masked_aux m rules p _ (fun h => Json.noConfusion h) hmem e he)
    · have hmem' : isMaskedPath p rules = false := bool_false_of_not_true hmem
      rcases hres : maskFields m rules p fs with ⟨rt, tr⟩
      cases rt with
      | ok gs =>
        rw [maskWithPaths_obj_ok m rules p fs gs tr hmem' hres] at he
        simp at he
        rcases he with he | he
        · subst he
          exact Or.inl ⟨rfl, fun h => LogEvent.noConfusion h⟩
        · exact Or.inr (traceInv_fields m rules p fs e (by rw [hres]; simpa using he))
      | error er =>
        rw [maskWithPaths_obj_err m rules p fs er tr hmem' hres] at he
        simp at he
        rcases he with he | he
        · subst he
          exact Or.inl ⟨rfl, fun h => LogEvent.noConfusion h⟩
        · exact Or.inr (traceInv_fields m rules p fs e (by rw [hres]; simpa using he))

theorem traceInv_fields : ∀ (m : masker) (rules : List String) (p : String) (fs : JsonFields)
    (e : LogEvent), e ∈ (maskFields m rules p fs).2 → p.length < e.path.length
  | m, rules, p, .nil, e, he => by
    rw [maskFields_nil] at he
    simp at he
  | m, rules, p, .cons k v tl, e, he => by
    by_cases hmem : isMaskedPath (p ++ "." ++ k) rules = true
    · cases hmf : m.maskFunc with
      | none =>
        rw [maskFields_cons_masked_none m rules p k v tl hmf hmem] at he
        simp at he
        rcases he with he | he <;> subst he <;>
          simpa [LogEvent.path] using strLen_fieldPath p k
      | some f =>
        rcases htl : maskFields m rules p tl with ⟨rt, tr⟩
        cases rt with
        | ok gs =>
          rw [maskFields_cons_masked m rules p k v tl gs tr f hmf hmem htl] at he
          simp at he
          rcases he with he | he | he
          · subst he
            simpa [LogEvent.path] using strLen_fieldPath p k
          · subst he
            simpa [LogEvent.path] using strLen_fieldPath p k
          · exact traceInv_fields m rules p tl e (by rw [htl]; simpa using he)
        | error er =>
          rw [maskFields_cons_masked_tailerr m rules p k v tl er tr f hmf hmem htl] at he
          simp at he
          rcases he with he | he | he
          · subst he
            simpa [LogEvent.path] using strLen_fieldPath p k
          · subst he
            simpa [LogEvent.path] using strLen_fieldPath p k
          · exact traceInv_fields m rules p tl e (by rw [htl]; simpa using he)
    · have hmem' : isMaskedPath (p ++ "." ++ k) rules = false := bool_false_of_not_true hmem
      by_cases hv : v = Json.null
      · subst hv
        rcases htl : maskFields m rules p tl with ⟨rt, tr⟩
        rw [maskFields_cons_null m rules p k tl rt tr hmem' htl] at he
        simp at he
        rcases he with he | he
        · subst he
          simpa [LogEvent.path] using strLen_fieldPath p k
        · exact traceInv_fields m rules p tl e (by rw [htl]; simpa using he)
      · rcases hch : maskWithPaths m rules (p ++ "." ++ k) v with ⟨rc, trc⟩
        cases rc with
        | ok gv =>
          rcases htl : maskFields m rules p tl with ⟨rt, tr⟩
          rw [maskFields_cons_trace_ok m rules p k v gv tl rt trc tr hmem' hv hch htl] at he
          simp at he
          rcases he with he | he | he
          · subst he
            simpa [LogEvent.path] using strLen_fieldPath p k
          · rcases traceInv_v m rules (p ++ "." ++ k) v e (by rw [hch]; simpa using he) with
              ⟨hpe, _⟩ | hlt
            · rw [hpe]
              exact strLen_fieldPath p k
            · exact Nat.lt_trans (strLen_fieldPath p k) hlt
          · exact traceInv_fields m rules p tl e (by rw [htl]; simpa using he)
        | error er =>
          rw [maskFields_cons_childerr m rules p k v tl er trc hmem' hv hch] at he
          simp at he
          rcases he with he | he
          · subst he
            simpa [LogEvent.path] using strLen_fieldPath p k
          · rcases traceInv_v m rules (p ++ "." ++ k) v e (by rw [hch]; simpa using he) with
              ⟨hpe, _⟩ | hlt
            · rw [hpe]
              exact strLen_fieldPath p k
            · exact Nat.lt_trans (strLen_fieldPath p k) hlt

theorem traceInv_elems : ∀ (m : masker) (rules : List String) (p : String) (i : Nat)
    (xs : JsonList) (e : LogEvent), e ∈ (maskElems m rules p i xs).2 → p.length < e.path.length
  | m, rules, p, i, .nil, e, he => by
    rw [maskElems_nil] at he
    simp at he
  | m, rules, p, i, .cons v tl, e, he => by
    by_cases hmem : isMaskedPath (p ++ "[" ++ natToString i ++ "]") rules = true
    · cases hmf : m.maskFunc with
      | none =>
        rw [maskElems_cons_masked_none m rules p i v tl hmf hmem] at he
        simp at he
        rcases he with he | he <;> subst he <;>
          simpa [LogEvent.path] using strLen_idxPath p (natToString i)
      | some f =>
        rcases htl : maskElems m rules p (i + 1) tl with ⟨rt, tr⟩
        cases rt with
        | ok ys =>
          rw [maskElems_cons_masked m rules p i v tl ys tr f hmf hmem htl] at he
          simp at he
          rcases he with he | he | he
          · subst he
            simpa [LogEvent.path] using strLen_idxPath p (natToString i)
          · subst he
            simpa [LogEvent.path] using strLen_idxPath p (natToString i)
          · exact traceInv_elems m rules p (i + 1) tl e (by rw [htl]; simpa using he)
        | error er =>
          rw [maskElems_cons_masked_tailerr m rules p i v tl er tr f hmf hmem htl] at he
          simp at he
          rcases he with he | he | he
          · subst he
            simpa [LogEvent.path] using strLen_idxPath p (natToString i)
          · subst he
            simpa [LogEvent.path] using strLen_idxPath p (natToString i)
          · exact traceInv_elems m rules p (i + 1) tl e (by rw [htl]; simpa using he)
    · have hmem' : isMaskedPath (p ++ "[" ++ natToString i ++ "]") rules = false :=
        bool_false_of_not_true hmem
      by_cases hv : v = Json.null
      · subst hv
        rw [maskElems_cons_null m rules p i tl hmem'] at he
        simp at he
        subst he
        simpa [LogEvent.path] using strLen_idxPath p (natToString i)
      · rcases hch : maskWithPaths m rules (p ++ "[" ++ natToString i ++ "]") v with ⟨rc, trc⟩
        cases rc with
        | ok gv =>
          rcases htl : maskElems m rules p (i + 1) tl with ⟨rt, tr⟩
          rw [maskElems_cons_trace_ok m rules p i v gv tl rt trc tr hmem' hv hch htl] at he
          simp at he
          rcases he with he | he | he
          · subst he
            simpa [LogEvent.path] using strLen_idxPath p (natToString i)
          · rcases traceInv_v m rules (p ++ "[" ++ natToString i ++ "]") v e
                (by rw [hch]; simpa using he) with ⟨hpe, _⟩ | hlt
            · rw [hpe]
              exact strLen_idxPath p (natToString i)
            · exact Nat.lt_trans (strLen_idxPath p (natToString i)) hlt
          · exact traceInv_elems m rules p (i + 1) tl e (by rw [htl]; simpa using he)
        | error er =>
          rw [maskElems_cons_childerr m rules p i v tl er trc hmem' hv hch] at he
          simp at he
          rcases he with he | he
          · subst he
            simpa [LogEvent.path] using strLen_idxPath p (natToString i)
          · rcases traceInv_v m rules (p ++ "[" ++ natToString i ++ "]") v e
                (by rw [hch]; simpa using he) with ⟨hpe, _⟩ | hlt
            · rw [hpe]
              exact strLen_idxPath p (natToString i)
            · exact Nat.lt_trans (strLen_idxPath p (natToString i)) hlt

end

/-- A node's visit records a `Masking` event for its own path exactly when
the rule set contains the canonicalized path (null nodes excepted: the walk
returns before the rule check). -/
theorem masked_iff_trace (m : masker) (rules : List String) (p : String) (v : Json)
    (hv : v ≠ Json.null) :
    (LogEvent.masking p ∈ (maskWithPaths m rules p v).2) ↔ isMaskedPath p rules = true := by
  constructor
  · intro he
    rcases traceInv_v m rules p v (.masking p) he with ⟨_, himp⟩ | hlt
    · exact himp rfl
    · simp [LogEvent.path] at hlt
  · intro hmem
    rw [maskWithPaths_masked_trace m rules p v hmem hv]
    simp

theorem nullFree_ne_null (v : Json) (h : nullFree v = true) : v ≠ Json.null := by
  intro hc
  subst hc
  simp [nullFree] at h

theorem nullFreeFields_head (k : String) (v : Json) (tl : JsonFields)
    (h : nullFreeFields (.cons k v tl) = true) :
    nullFree v = true ∧ nullFreeFields tl = true := by
  simpa [nullFreeFields, Bool.and_eq_true] using h

theorem nullFreeList_head (v : Json) (tl : JsonList)
    (h : nullFreeList (.cons v tl) = true) :
    nullFree v = true ∧ nullFreeList tl = true := by
  simpa [nullFreeList, Bool.and_eq_true] using h

theorem nullFree_find : ∀ (fs : JsonFields) (k : String) (v : Json),
    nullFreeFields fs = true → JsonFields.find fs k = some v → nullFree v = true
  | .nil, k, v, _, hfind => by simp [JsonFields.find] at hfind
  | .cons k0 v0 tl, k, v, hnf, hfind => by
    obtain ⟨h0, ht⟩ := nullFreeFields_head k0 v0 tl hnf
    by_cases hk : k0 = k
    · rw [show JsonFields.find (.cons k0 v0 tl) k = some v0 by simp [JsonFields.find, hk]] at hfind
      injection hfind with h
      rw [← h]
      exact h0
    · rw [show JsonFields.find (.cons k0 v0 tl) k = JsonFields.find tl k by
        simp [JsonFields.find, hk]] at hfind
      exact nullFree_find tl k v ht hfind

theorem nullFree_get : ∀ (xs : JsonList) (i : Nat) (v : Json),
    nullFreeList xs = true → JsonList.get xs i = some v → nullFree v = true
  | .nil, i, v, _, hget => by simp [JsonList.get] at hget
  | .cons v0 tl, 0, v, hnf, hget => by
    obtain ⟨h0, _⟩ := nullFreeList_head v0 tl hnf
    rw [show JsonList.get (.cons v0 tl) 0 = some v0 from rfl] at hget
    injection hget with h
    rw [← h]
    exact h0
  | .cons v0 tl, i + 1, v, hnf, hget => by
    obtain ⟨_, ht⟩ := nullFreeList_head v0 tl hnf
    exact nullFree_get tl i v ht hget

mutual

theorem walkTotal_v : ∀ (m : masker) (f : Json → String) (rules : List String) (p : String)
    (v : Json), m.maskFunc = some f → nullFree v = true →
    ∃ w tr, maskWithPaths m rules p v = (.ok (.json w), tr)
  | m, f, rules, p, .null, hf, hnf => by simp [nullFree] at hnf
  | m, f, rules, p, .bool b, hf, hnf => by
    by_cases hmem : isMaskedPath p rules = true
    · exact ⟨_, _, maskWithPaths_masked m rules p _ f hf hmem (fun h => Json.noConfusion h)⟩
    · exact ⟨_, _, maskWithPaths_scalar m rules p (.bool b) (bool_false_of_not_true hmem) rfl⟩
  | m, f, rules, p, .num a b, hf, hnf => by
    by_cases hmem : isMaskedPath p rules = true
    · exact ⟨_, _, maskWithPaths_masked m rules p _ f hf hmem (fun h => Json.noConfusion h)⟩
    · exact ⟨_, _, maskWithPaths_scalar m rules p (.num a b) (bool_false_of_not_true hmem) rfl⟩
  | m, f, rules, p, .str s, hf, hnf => by
    by_cases hmem : isMaskedPath p rules = true
    · exact ⟨_, _, maskWithPaths_masked m rules p _ f hf hmem (fun h => Json.noConfusion h)⟩
    · exact ⟨_, _, maskWithPaths_scalar m rules p (.str s) (bool_false_of_not_true hmem) rfl⟩
  | m, f, rules, p, .arr xs, hf, hnf => by
    by_cases hmem : isMaskedPath p rules = true
    · exact ⟨_, _, maskWithPaths_masked m rules p _ f hf hmem (fun h => Json.noConfusion h)⟩
    · obtain ⟨ys, tr, h⟩ := walkTotal_elems m f rules p 0 xs hf (by simpa [nullFree] using hnf)
      exact ⟨_, _, maskWithPaths_arr_ok m rules p xs ys tr (bool_false_of_not_true hmem) h⟩
  | m, f, rules, p, .obj fs, hf, hnf => by
    by_cases hmem : isMaskedPath p rules = true
    · exact ⟨_, _, maskWithPaths_masked m rules p _ f hf hmem (fun h => Json.noConfusion h)⟩
    · obtain ⟨gs, tr, h⟩ := walkTotal_fields m f rules p fs hf (by simpa [nullFree] using hnf)
      exact ⟨_, _, maskWithPaths_obj_ok m rules p fs gs tr (bool_false_of_not_true hmem) h⟩

theorem walkTotal_fields : ∀ (m : masker) (f : Json → String) (rules : List String) (p : String)
    (fs : JsonFields), m.maskFunc = some f → nullFreeFields fs = true →
    ∃ gs tr, maskFields m rules p fs = (.ok gs, tr)
  | m, f, rules, p, .nil, hf, _ => ⟨.nil, [], maskFields_nil m rules p⟩
  | m, f, rules, p, .cons k v tl, hf, hnf => by
    obtain ⟨h0, ht⟩ := nullFreeFields_head k v tl hnf
    obtain ⟨gs, tr, htl⟩ := walkTotal_fields m f rules p tl hf ht
    by_cases hmem : isMaskedPath (p ++ "." ++ k) rules = true
    · exact ⟨_, _, maskFields_cons_masked m rules p k v tl gs tr f hf hmem htl⟩
    · obtain ⟨w, trc, hch⟩ := walkTotal_v m f rules (p ++ "." ++ k) v hf h0
      exact ⟨_, _, maskFields_cons_ok m rules p k v w tl gs trc tr
        (bool_false_of_not_true hmem) (nullFree_ne_null v h0) hch htl⟩

theorem walkTotal_elems : ∀ (m : masker) (f : Json → String) (rules : List String) (p : String)
    (i : Nat) (xs : JsonList), m.maskFunc = some f → nullFreeList xs = true →
    ∃ ys tr, maskElems m rules p i xs = (.ok ys, tr)
  | m, f, rules, p, i, .nil, hf, _ => ⟨.nil, [], maskElems_nil m rules p i⟩
  | m, f, rules, p, i, .cons v tl, hf, hnf => by
    obtain ⟨h0, ht⟩ := nullFreeList_head v tl hnf
    obtain ⟨ys, tr, htl⟩ := walkTotal_elems m f rules p (i + 1) tl hf ht
    by_cases hmem : isMaskedPath (p ++ "[" ++ natToString i ++ "]") rules = true
    · exact ⟨_, _, maskElems_cons_masked m rules p i v tl ys tr f hf hmem htl⟩
    · obtain ⟨w, trc, hch⟩ := walkTotal_v m f rules (p ++ "[" ++ natToString i ++ "]") v hf h0
      exact ⟨_, _, maskElems_cons_ok m rules p i v w tl ys trc tr
        (bool_false_of_not_true hmem) (nullFree_ne_null v h0) hch htl⟩

end

theorem maskFields_entry : ∀ (m : masker) (f : Json → String) (rules : List String) (p : String)
    (fs : JsonFields), m.maskFunc = some f → nullFreeFields fs = true →
    ∃ gs tr, maskFields m rules p fs = (.ok gs, tr) ∧
      ∀ k, JsonFields.find gs k
        = (JsonFields.find fs k).map (childTransform m f rules (p ++ "." ++ k))
  | m, f, rules, p, .nil, hf, _ =>
    ⟨.nil, [], maskFields_nil m rules p, by intro k; simp [JsonFields.find]⟩
  | m, f, rules, p, .cons k0 v0 tl, hf, hnf => by
    obtain ⟨h0, ht⟩ := nullFreeFields_head k0 v0 tl hnf
    obtain ⟨gs, tr, htl, hfind⟩ := maskFields_entry m f rules p tl hf ht
    by_cases hmem : isMaskedPath (p ++ "." ++ k0) rules = true
    · refine ⟨.cons k0 (.str (f v0)) gs, _,
        maskFields_cons_masked m rules p k0 v0 tl gs tr f hf hmem htl, ?_⟩
      intro k
      by_cases hk : k0 = k
      · subst hk
        simp [JsonFields.find, childTransform, hmem]
      · simp [JsonFields.find, hk, hfind k]
    · have hmem' : isMaskedPath (p ++ "." ++ k0) rules = false := bool_false_of_not_true hmem
      obtain ⟨w, trc, hch⟩ := walkTotal_v m f rules (p ++ "." ++ k0) v0 hf h0
      refine ⟨.cons k0 w gs, _,
        maskFields_cons_ok m rules p k0 v0 w tl gs trc tr hmem' (nullFree_ne_null v0 h0) hch htl, ?_⟩
      intro k
      by_cases hk : k0 = k
      · subst hk
        simp [JsonFields.find, childTransform, hmem', walkVal, hch]
      · simp [JsonFields.find, hk, hfind k]

theorem maskElems_entry : ∀ (m : masker) (f : Json → String) (rules : List String) (p : String)
    (i : Nat) (xs : JsonList), m.maskFunc = some f → nullFreeList xs = true →
    ∃ ys tr, maskElems m rules p i xs = (.ok ys, tr) ∧
      ∀ j, JsonList.get ys j
        = (JsonList.get xs j).map
            (fun v => childTransform m f rules (p ++ "[" ++ natToString (i + j) ++ "]") v)
  | m, f, rules, p, i, .nil, hf, _ =>
    ⟨.nil, [], maskElems_nil m rules p i, by intro j; simp [JsonList.get]⟩
  | m, f, rules, p, i, .cons v0 tl, hf, hnf => by
    obtain ⟨h0, ht⟩ := nullFreeList_head v0 tl hnf
    obtain ⟨ys, tr, htl, hget⟩ := maskElems_entry m f rules p (i + 1) tl hf ht
    by_cases hmem : isMaskedPath (p ++ "[" ++ natToString i ++ "]") rules = true
    · refine ⟨.cons (.str (f v0)) ys, _,
        maskElems_cons_masked m rules p i v0 tl ys tr f hf hmem htl, ?_⟩
      intro j
      cases j with
      | zero => simp [JsonList.get, childTransform, hmem]
      | succ j =>
        rw [show JsonList.get (.cons (Json.str (f v0)) ys) (j + 1) = JsonList.get ys j from rfl,
          show JsonList.get (.cons v0 tl) (j + 1) = JsonList.get tl j from rfl, hget j]
        have hidx : i + 1 + j = i + (j + 1) := by omega
        rw [hidx]
    · have hmem' : isMaskedPath (p ++ "[" ++ natToString i ++ "]") rules = false :=
        bool_false_of_not_true hmem
      obtain ⟨w, trc, hch⟩ := walkTotal_v m f rules (p ++ "[" ++ natToString i ++ "]") v0 hf h0
      refine ⟨.cons w ys, _,
        maskElems_cons_ok m rules p i v0 w tl ys trc tr hmem' (nullFree_ne_null v0 h0) hch htl, ?_⟩
      intro j
      cases j with
      | zero => simp [JsonList.get, childTransform, hmem', walkVal, hch]
      | succ j =>
        rw [show JsonList.get (.cons w ys) (j + 1) = JsonList.get ys j from rfl,
          show JsonList.get (.cons v0 tl) (j + 1) = JsonList.get tl j from rfl, hget j]
        have hidx : i + 1 + j = i + (j + 1) := by omega
        rw [hidx]

mutual

theorem walkId_v : ∀ (m : masker) (p : String) (v : Json), nullFree v = true →
    ∃ tr, maskWithPaths m [] p v = (.ok (.json v), tr)
  | m, p, .null, hnf => by simp [nullFree] at hnf
  | m, p, .bool b, _ => ⟨_, maskWithPaths_scalar m [] p (.bool b) (isMaskedPath_nil p) rfl⟩
  | m, p, .num a b, _ => ⟨_, maskWithPaths_scalar m [] p (.num a b) (isMaskedPath_nil p) rfl⟩
  | m, p, .str s, _ => ⟨_, maskWithPaths_scalar m [] p (.str s) (isMaskedPath_nil p) rfl⟩
  | m, p, .arr xs, hnf => by
    obtain ⟨tr, h⟩ := walkId_elems m p 0 xs (by simpa [nullFree] using hnf)
    exact ⟨_, maskWithPaths_arr_ok m [] p xs xs tr (isMaskedPath_nil p) h⟩
  | m, p, .obj fs, hnf => by
    obtain ⟨tr, h⟩ := walkId_fields m p fs (by simpa [nullFree] using hnf)
    exact ⟨_, maskWithPaths_obj_ok m [] p fs fs tr (isMaskedPath_nil p) h⟩

theorem walkId_fields : ∀ (m : masker) (p : String) (fs : JsonFields),
    nullFreeFields fs = true → ∃ tr, maskFields m [] p fs = (.ok fs, tr)
  | m, p, .nil, _ => ⟨[], maskFields_nil m [] p⟩
  | m, p, .cons k v tl, hnf => by
    obtain ⟨h0, ht⟩ := nullFreeFields_head k v tl hnf
    obtain ⟨tr, htl⟩ := walkId_fields m p tl ht
    obtain ⟨trc, hch⟩ := walkId_v m (p ++ "." ++ k) v h0
    exact ⟨_, maskFields_cons_ok m [] p k v v tl tl trc tr (isMaskedPath_nil _)
      (nullFree_ne_null v h0) hch htl⟩

theorem walkId_elems : ∀ (m : masker) (p : String) (i : Nat) (xs : JsonList),
    nullFreeList xs = true → ∃ tr, maskElems m [] p i xs = (.ok xs, tr)
  | m, p, i, .nil, _ => ⟨[], maskElems_nil m [] p i⟩
  | m, p, i, .cons v tl, hnf => by
    obtain ⟨h0, ht⟩ := nullFreeList_head v tl hnf
    obtain ⟨tr, htl⟩ := walkId_elems m p (i + 1) tl ht
    obtain ⟨trc, hch⟩ := walkId_v m (p ++ "[" ++ natToString i ++ "]") v h0
    exact ⟨_, maskElems_cons_ok m [] p i v v tl tl trc tr (isMaskedPath_nil _)
      (nullFree_ne_null v h0) hch htl⟩

end

theorem maskElems_allMasked : ∀ (m : masker) (f : Json → String) (rules : List String)
    (p : String) (xs : JsonList) (i : Nat), m.maskFunc = some f →
    (∀ j, isMaskedPath (p ++ "[" ++ natToString j ++ "]") rules = true) →
    ∃ tr, maskElems m rules p i xs = (.ok (JsonList.map (fun x => .str (f x)) xs), tr)
  | m, f, rules, p, .nil, i, hf, _ => ⟨[], by rw [maskElems_nil]; rfl⟩
  | m, f, rules, p, .cons v tl, i, hf, hall => by
    obtain ⟨tr, htl⟩ := maskElems_allMasked m f rules p tl (i + 1) hf hall
    exact ⟨_, by
      rw [maskElems_cons_masked m rules p i v tl _ tr f hf (hall i) htl]
      rfl⟩

theorem getPath_nil (v : Json) : getPath v [] = some v := by
  cases v <;> rfl

theorem stepInits_nil_mem (steps : List Step) : [] ∈ stepInits steps := by
  cases steps <;> simp [stepInits]

theorem stepInits_cons_mem (s : Step) (pre rest : List Step) (h : pre ∈ stepInits rest) :
    s :: pre ∈ stepInits (s :: rest) := by
  rw [show stepInits (s :: rest) = [] :: (stepInits rest).map (fun q => s :: q) from rfl]
  exact List.mem_cons_of_mem _ (List.mem_map_of_mem _ h)

/-- A scalar leaf whose own path and all of whose ancestors' synthesized
paths match no rule is preserved at its position by the walk, provided the
tree is null-free and a mask function is configured (so the walk cannot
panic elsewhere). -/
theorem walk_preserves : ∀ (steps : List Step) (m : masker) (f : Json → String)
    (rules : List String) (p : String) (v leaf : Json),
    m.maskFunc = some f → nullFree v = true → getPath v steps = some leaf →
    isScalar leaf = true →
    (∀ pre ∈ stepInits steps, isMaskedPath (stepsPath p pre) rules = false) →
    ∃ w tr, maskWithPaths m rules p v = (.ok (.json w), tr) ∧ getPath w steps = some leaf := by
  intro steps
  induction steps with
  | nil =>
    intro m f rules p v leaf hf hnf hget hs hpre
    rw [getPath_nil v] at hget
    injection hget with hleaf
    subst hleaf
    have hmem : isMaskedPath p rules = false := by
      have h := hpre [] (stepInits_nil_mem [])
      simpa [stepsPath] using h
    exact ⟨v, [.processing p], maskWithPaths_scalar m rules p v hmem hs, getPath_nil v⟩
  | cons s rest ih =>
    intro m f rules p v leaf hf hnf hget hs hpre
    have hmemp : isMaskedPath p rules = false := by
      have h := hpre [] (stepInits_nil_mem (s :: rest))
      simpa [stepsPath] using h
    cases s with
    | field k =>
      cases v with
      | null => simp [nullFree] at hnf
      | bool b => simp [getPath] at hget
      | num a b => simp [getPath] at hget
      | str s' => simp [getPath] at hget
      | arr xs => simp [getPath] at hget
      | obj fs =>
        rcases hfind : JsonFields.find fs k with _ | v'
        · rw [show getPath (.obj fs) (.field k :: rest)
              = (match JsonFields.find fs k with
                 | some v' => getPath v' rest
                 | none => none) from rfl, hfind] at hget
          exact absurd hget (by simp)
        · have hget' : getPath v' rest = some leaf := by
            rw [show getPath (.obj fs) (.field k :: rest)
                = (match JsonFields.find fs k with
                   | some v' => getPath v' rest
                   | none => none) from rfl, hfind] at hget
            exact hget
          have hnfF : nullFreeFields fs = true := by simpa [nullFree] using hnf
          have hnf' : nullFree v' = true := nullFree_find fs k v' hnfF hfind
          have hpre' : ∀ pre ∈ stepInits rest,
              isMaskedPath (stepsPath (p ++ "." ++ k) pre) rules = false := by
            intro pre hp
            have h := hpre (.field k :: pre) (stepInits_cons_mem _ pre rest hp)
            simpa [stepsPath] using h
          obtain ⟨w', tr', hw', hget''⟩ := ih m f rules (p ++ "." ++ k) v' leaf hf hnf' hget' hs hpre'
          obtain ⟨gs, tr, hfs, hfindgs⟩ := maskFields_entry m f rules p fs hf hnfF
          have hmemk : isMaskedPath (p ++ "." ++ k) rules = false := by
            have h := hpre' [] (stepInits_nil_mem rest)
            simpa [stepsPath] using h
          refine ⟨.obj gs, _, maskWithPaths_obj_ok m rules p fs gs tr hmemp hfs, ?_⟩
          have hg : JsonFields.find gs k = some w' := by
            rw [hfindgs k, hfind]
            simp [childTransform, hmemk, walkVal, hw']
          rw [show getPath (.obj gs) (.field k :: rest)
              = (match JsonFields.find gs k with
                 | some u => getPath u rest
                 | none => none) from rfl, hg]
          exact hget''
    | idx i =>
      cases v with
      | null => simp [nullFree] at hnf
      | bool b => simp [getPath] at hget
      | num a b => simp [getPath] at hget
      | str s' => simp [getPath] at hget
      | obj fs => simp [getPath] at hget
      | arr xs =>
        rcases hfind : JsonList.get xs i with _ | v'
        · rw [show getPath (.arr xs) (.idx i :: rest)
              = (match JsonList.get xs i with
                 | some v' => getPath v' rest
                 | none => none) from rfl, hfind] at hget
          exact absurd hget (by simp)
        · have hget' : getPath v' rest = some leaf := by
            rw [show getPath (.arr xs) (.idx i :: rest)
                = (match JsonList.get xs i with
                   | some v' => getPath v' rest
                   | none => none) from rfl, hfind] at hget
            exact hget
          have hnfL : nullFreeList xs = true := by simpa [nullFree] using hnf
          have hnf' : nullFree v' = true := nullFree_get xs i v' hnfL hfind
          have hpre' : ∀ pre ∈ stepInits rest,
              isMaskedPath (stepsPath (p ++ "[" ++ natToString i ++ "]") pre) rules = false := by
            intro pre hp
            have h := hpre (.idx i :: pre) (stepInits_cons_mem _ pre rest hp)
            simpa [stepsPath] using h
          obtain ⟨w', tr', hw', hget''⟩ :=
            ih m f rules (p ++ "[" ++ natToString i ++ "]") v' leaf hf hnf' hget' hs hpre'
          obtain ⟨ys, tr, hxs, hgetys⟩ := maskElems_entry m f rules p 0 xs hf hnfL
          have hmemi : isMaskedPath (p ++ "[" ++ natToString i ++ "]") rules = false := by
            have h := hpre' [] (stepInits_nil_mem rest)
            simpa [stepsPath] using h
          refine ⟨.arr ys, _, maskWithPaths_arr_ok m rules p xs ys tr hmemp hxs, ?_⟩
          have hg : JsonList.get ys i = some w' := by
            have h := hgetys i
            rw [hfind] at h
            rw [h]
            simp [childTransform, hmemi, walkVal, hw']
          rw [show getPath (.arr ys) (.idx i :: rest)
              = (match JsonList.get ys i with
                 | some u => getPath u rest
                 | none => none) from rfl, hg]
          exact hget''

/-!
## Lemmas: the document codec roundtrip
-/

theorem ne_of_isDigit (c d : Char) (h : c.isDigit = true) (hd : d.isDigit = false) : c ≠ d := by
  intro he
  subst he
  rw [h] at hd
  exact Bool.noConfusion hd

theorem isDigit_not_ws (c : Char) (h : c.isDigit = true) : isWs c = false := by
  have h1 : c ≠ ' ' := ne_of_isDigit c ' ' h (by decide)
  have h2 : c ≠ '\t' := ne_of_isDigit c '\t' h (by decide)
  have h3 : c ≠ '\n' := ne_of_isDigit c '\n' h (by decide)
  have h4 : c ≠ Char.ofNat 13 := ne_of_isDigit c (Char.ofNat 13) h (by decide)
  simp [isWs, h1, h2, h3, h4]

theorem digitChar_toNat (k : Nat) (h : k < 10) : (digitChar k).toNat = 48 + k := by
  interval_cases k <;> decide

theorem digitsVal_append_singleton (xs : List Char) (d : Char) :
    digitsVal (xs ++ [d]) = digitsVal xs * 10 + (d.toNat - 48) := by
  simp [digitsVal, List.foldl_append]

theorem natToCharsAux_val : ∀ (fuel n : Nat), n < 10 ^ fuel →
    digitsVal (natToCharsAux fuel n) = n := by
  intro fuel
  induction fuel with
  | zero =>
    intro n hn
    have : n = 0 := by simpa using hn
    subst this
    rfl
  | succ fuel ih =>
    intro n hn
    by_cases h : n < 10
    · rw [show natToCharsAux (fuel + 1) n = [digitChar n] by simp [natToCharsAux, h]]
      rw [show digitsVal [digitChar n] = (digitChar n).toNat - 48 by simp [digitsVal]]
      rw [digitChar_toNat n h]
      omega
    · rw [show natToCharsAux (fuel + 1) n
          = natToCharsAux fuel (n / 10) ++ [digitChar (n % 10)] by simp [natToCharsAux, h]]
      rw [digitsVal_append_singleton, digitChar_toNat (n % 10) (Nat.mod_lt n (by omega))]
      have hdiv : n / 10 < 10 ^ fuel := by
        rw [pow_succ] at hn
        exact Nat.div_lt_of_lt_mul (by omega)
      rw [ih (n / 10) hdiv]
      omega

theorem natToChars_val (n : Nat) : digitsVal (natToChars n) = n := by
  have h1 : n < 10 ^ n := Nat.lt_pow_self (by norm_num) n
  have h2 : (10 : Nat) ^ n ≤ 10 ^ (n + 1) := Nat.pow_le_pow_right (by norm_num) (Nat.le_succ n)
  exact natToCharsAux_val (n + 1) n (lt_of_lt_of_le h1 h2)

theorem natToChars_head (n : Nat) : ∃ d t, natToChars n = d :: t ∧ d.isDigit = true := by
  rcases h : natToChars n with _ | ⟨d, t⟩
  · exact absurd h (natToChars_ne_nil n)
  · exact ⟨d, t, rfl, natToChars_digits n d (by rw [h]; simp)⟩

theorem takeDigits_all : ∀ (ds rest : List Char), (∀ c ∈ ds, c.isDigit = true) →
    (∀ r rs, rest = r :: rs → r.isDigit = false) → takeDigits (ds ++ rest) = (ds, rest) := by
  intro ds
  induction ds with
  | nil =>
    intro rest _ hrest
    cases rest with
    | nil => rfl
    | cons r rs => simp [takeDigits, hrest r rs rfl]
  | cons d ds ih =>
    intro rest hds hrest
    have hd : d.isDigit = true := hds d (by simp)
    have hds' : ∀ c ∈ ds, c.isDigit = true := fun c hc => hds c (by simp [hc])
    simp [takeDigits, hd, ih rest hds' hrest]

theorem numSafe_spec (c : Char) (r : List Char) (h : numSafe (c :: r) = true) :
    c.isDigit = false ∧ c ≠ '.' ∧ c ≠ 'e' ∧ c ≠ 'E' := by
  simp [numSafe] at h
  exact ⟨h.1.1.1, h.1.1.2, h.1.2, h.2⟩

theorem takeDigits_natToChars (n : Nat) (rest : List Char)
    (hrest : ∀ r rs, rest = r :: rs → r.isDigit = false) :
    takeDigits (natToChars n ++ rest) = (natToChars n, rest) :=
  takeDigits_all (natToChars n) rest (natToChars_digits n) hrest

theorem parseNumExp_noexp (neg : Bool) (ds : List Char) (e0 : Int) (rest : List Char)
    (hsafe : numSafe rest = true) :
    parseNumExp neg ds e0 rest
      = .ok (.num (if neg then -(digitsVal ds : Int) else (digitsVal ds : Int)) e0, rest) := by
  cases rest with
  | nil => rfl
  | cons c r =>
    obtain ⟨_, _, he, hE⟩ := numSafe_spec c r hsafe
    have hc : ¬(c = 'e' ∨ c = 'E') := by
      intro hor
      rcases hor with h | h
      · exact he h
      · exact hE h
    simp [parseNumExp, hc]

theorem parseNumExp_exp (neg : Bool) (ds : List Char) (e0 e : Int) (rest : List Char)
    (hsafe : numSafe rest = true) :
    parseNumExp neg ds e0 ('e' :: (intToChars e ++ rest))
      = .ok (.num (if neg then -(digitsVal ds : Int) else (digitsVal ds : Int)) (e0 + e), rest) := by
  have hrest : ∀ r rs, rest = r :: rs → r.isDigit = false := by
    intro r rs hr
    subst hr
    exact (numSafe_spec r rs hsafe).1
  obtain ⟨d, t, hdt, hdig⟩ := natToChars_head e.natAbs
  by_cases hneg : e < 0
  · have hi : intToChars e = '-' :: natToChars e.natAbs := by simp [intToChars, hneg]
    rw [hi]
    rw [show parseNumExp neg ds e0 ('e' :: (('-' :: natToChars e.natAbs) ++ rest))
        = (match takeDigits (expSign (('-' :: natToChars e.natAbs) ++ rest)).2 with
           | ([], _) => .error ("missing digits in number exponent")
           | (expDs, rest2) =>
             .ok (.num (if neg then -(digitsVal ds : Int) else (digitsVal ds : Int))
               (e0 + (if (expSign (('-' :: natToChars e.natAbs) ++ rest)).1 then
                  -(digitsVal expDs : Int) else (digitsVal expDs : Int))), rest2)) by
      simp [parseNumExp]]
    rw [show expSign (('-' :: natToChars e.natAbs) ++ rest)
        = (true, natToChars e.natAbs ++ rest) by simp [expSign]]
    rw [show (true, natToChars e.natAbs ++ rest).2 = natToChars e.natAbs ++ rest from rfl,
      takeDigits_natToChars e.natAbs rest hrest, hdt]
    have hval : (digitsVal (d :: t) : Int) = (e.natAbs : Int) := by
      rw [← hdt, natToChars_val]
    simp [hval, abs_of_neg hneg]
  · have hi : intToChars e = natToChars e.natAbs := by simp [intToChars, hneg]
    rw [hi]
    have hd1 : d ≠ '-' := ne_of_isDigit d '-' hdig (by decide)
    have hd2 : d ≠ '+' := ne_of_isDigit d '+' hdig (by decide)
    rw [show parseNumExp neg ds e0 ('e' :: (natToChars e.natAbs ++ rest))
        = (match takeDigits (expSign (natToChars e.natAbs ++ rest)).2 with
           | ([], _) => .error ("missing digits in number exponent")
           | (expDs, rest2) =>
             .ok (.num (if neg then -(digitsVal ds : Int) else (digitsVal ds : Int))
               (e0 + (if (expSign (natToChars e.natAbs ++ rest)).1 then
                  -(digitsVal expDs : Int) else (digitsVal expDs : Int))), rest2)) by
      simp [parseNumExp]]
    rw [show expSign (natToChars e.natAbs ++ rest) = (false, natToChars e.natAbs ++ rest) by
      rw [hdt]
      simp [expSign, hd1, hd2]]
    rw [show (false, natToChars e.natAbs ++ rest).2 = natToChars e.natAbs ++ rest from rfl,
      takeDigits_natToChars e.natAbs rest hrest, hdt]
    have hval : (digitsVal (d :: t) : Int) = (e.natAbs : Int) := by
      rw [← hdt, natToChars_val]
    simp [hval, abs_of_nonneg (show (0 : Int) ≤ e by omega)]

theorem parseNum_reduce (sg : Bool) (cs X : List Char) (hsg : negSign cs = (sg, X)) :
    parseNum cs =
      (match takeDigits X with
       | ([], _) => .error ("invalid number syntax")
       | (intDs, rest1) =>
         match rest1 with
         | c :: r =>
           if c = '.' then
             match takeDigits r with
             | ([], _) => .error ("missing digits after decimal point")
             | (fracDs, rest2) => parseNumExp sg (intDs ++ fracDs) (-(fracDs.length : Int)) rest2
           else parseNumExp sg intDs 0 (c :: r)
         | [] => parseNumExp sg intDs 0 []) := by
  simp [parseNum, hsg]

theorem negSign_neg (X : List Char) : negSign ('-' :: X) = (true, X) := by
  simp [negSign]

theorem negSign_digit (d : Char) (hd : d.isDigit = true) (X : List Char) :
    negSign (d :: X) = (false, d :: X) := by
  simp [negSign, ne_of_isDigit d '-' hd (by decide)]

theorem parseNum_encode (mant e : Int) (rest : List Char) (hsafe : numSafe rest = true) :
    parseNum (encodeNum mant e ++ rest) = .ok (.num mant e, rest) := by
  obtain ⟨d, t, hdt, hdig⟩ := natToChars_head mant.natAbs
  -- the input splits as (sign?) ++ mantissa digits ++ tail
  have harg : ∃ (sg : Bool) (tail : List Char),
      negSign (encodeNum mant e ++ rest) = (sg, natToChars mant.natAbs ++ tail)
      ∧ tail = (if e = 0 then [] else 'e' :: (intToChars e ++ rest))
        ++ (if e = 0 then rest else [])
      ∧ (sg = true → mant < 0) ∧ (sg = false → 0 ≤ mant) := by
    by_cases hm : mant < 0
    · refine ⟨true, _, ?_, rfl, fun _ => hm, fun h => by simp at h⟩
      by_cases he : e = 0
      · rw [show encodeNum mant e ++ rest
            = '-' :: (natToChars mant.natAbs ++ ((if e = 0 then [] else
                'e' :: (intToChars e ++ rest)) ++ (if e = 0 then rest else []))) by
          simp [encodeNum, intToChars, hm, he]]
        exact negSign_neg _
      · rw [show encodeNum mant e ++ rest
            = '-' :: (natToChars mant.natAbs ++ ((if e = 0 then [] else
                'e' :: (intToChars e ++ rest)) ++ (if e = 0 then rest else []))) by
          simp [encodeNum, intToChars, hm, he]]
        exact negSign_neg _
    · refine ⟨false, _, ?_, rfl, fun h => by simp at h, fun _ => by omega⟩
      have hsplit : encodeNum mant e ++ rest
          = natToChars mant.natAbs ++ ((if e = 0 then [] else
              'e' :: (intToChars e ++ rest)) ++ (if e = 0 then rest else [])) := by
        by_cases he : e = 0 <;> simp [encodeNum, intToChars, hm, he]
      rw [hsplit, hdt, List.cons_append, negSign_digit d hdig _, ← List.cons_append, ← hdt]
  obtain ⟨sg, tail, hsg, htail, hsgt, hsgf⟩ := harg
  have htailhead : ∀ r rs, tail = r :: rs → r.isDigit = false ∧ r ≠ '.' := by
    intro r rs hr
    rw [htail] at hr
    by_cases he : e = 0
    · simp [he] at hr
      rcases rest with _ | ⟨c, cs⟩
      · exact absurd hr (by simp)
      · injection hr with h1 h2
        subst h1
        exact ⟨(numSafe_spec c cs hsafe).1, (numSafe_spec c cs hsafe).2.1⟩
    · simp [he] at hr
      obtain ⟨h1, _⟩ := hr
      subst h1
      exact ⟨by decide, by decide⟩
  rw [parseNum_reduce sg (encodeNum mant e ++ rest) (natToChars mant.natAbs ++ tail) hsg,
    takeDigits_natToChars mant.natAbs tail (fun r rs hr => (htailhead r rs hr).1), hdt]
  have hmant : (if sg then -(digitsVal (natToChars mant.natAbs) : Int)
      else (digitsVal (natToChars mant.natAbs) : Int)) = mant := by
    rw [natToChars_val]
    cases sg with
    | true =>
      have hm := hsgt rfl
      simp [abs_of_neg hm]
    | false =>
      have hm := hsgf rfl
      simp [abs_of_nonneg hm]
  by_cases he : e = 0
  · rw [show tail = rest by rw [htail]; simp [he]]
    rcases hr : rest with _ | ⟨c, r⟩
    · show parseNumExp sg (d :: t) 0 [] = Except.ok (.num mant e, [])
      rw [← hdt, parseNumExp_noexp sg (natToChars mant.natAbs) 0 [] rfl, hmant, he]
    · have hc : c ≠ '.' := by
        have h := numSafe_spec c r (hr ▸ hsafe)
        exact h.2.1
      show (if c = '.' then
          match takeDigits r with
          | ([], _) => .error ("missing digits after decimal point")
          | (fracDs, rest2) => parseNumExp sg ((d :: t) ++ fracDs) (-(fracDs.length : Int)) rest2
        else parseNumExp sg (d :: t) 0 (c :: r)) = Except.ok (.num mant e, c :: r)
      rw [if_neg hc, ← hdt, ← hr,
        parseNumExp_noexp sg (natToChars mant.natAbs) 0 rest hsafe, hmant, he, hr]
  · rw [show tail = 'e' :: (intToChars e ++ rest) by rw [htail]; simp [he]]
    show (if ('e' : Char) = '.' then
        match takeDigits (intToChars e ++ rest) with
        | ([], _) => .error ("missing digits after decimal point")
        | (fracDs, rest2) => parseNumExp sg ((d :: t) ++ fracDs) (-(fracDs.length : Int)) rest2
      else parseNumExp sg (d :: t) 0 ('e' :: (intToChars e ++ rest)))
      = Except.ok (.num mant e, rest)
    rw [if_neg (by decide), ← hdt,
      parseNumExp_exp sg (natToChars mant.natAbs) 0 e rest hsafe, hmant]
    rw [show (0 : Int) + e = e by omega]

theorem hexDigit_hexVal (x : Nat) (h : x < 16) : hexVal (hexDigit x) = some x := by
  interval_cases x <;> decide

theorem parseStrChars_quote (rest : List Char) :
    parseStrChars ('"' :: rest) = .ok ([], rest) := by
  unfold parseStrChars
  simp

theorem parseStrChars_esc (e : Char) (cs : List Char) (d : Char)
    (he : ¬ e = 'u') (hd : escDecode e = some d) :
    parseStrChars ('\\' :: e :: cs)
      = (match parseStrChars cs with
         | .ok (s, r) => .ok (d :: s, r)
         | .error msg => .error msg) := by
  conv_lhs => rw [parseStrChars.eq_def]
  simp [he, hd]

theorem parseStrChars_hex (h1 h2 h3 h4 : Char) (cs : List Char) (a b c3 d : Nat)
    (ha : hexVal h1 = some a) (hb : hexVal h2 = some b)
    (hc : hexVal h3 = some c3) (hd : hexVal h4 = some d) :
    parseStrChars ('\\' :: 'u' :: h1 :: h2 :: h3 :: h4 :: cs)
      = (match parseStrChars cs with
         | .ok (s, r) => .ok (Char.ofNat (((a * 16 + b) * 16 + c3) * 16 + d) :: s, r)
         | .error msg => .error msg) := by
  conv_lhs => rw [parseStrChars.eq_def]
  simp [ha, hb, hc, hd]

theorem parseStrChars_raw (c : Char) (cs : List Char)
    (h1 : ¬ c = '"') (h2 : ¬ c = '\\') :
    parseStrChars (c :: cs)
      = (match parseStrChars cs with
         | .ok (s, r) => .ok (c :: s, r)
         | .error msg => .error msg) := by
  conv_lhs => rw [parseStrChars.eq_def]
  simp [h1, h2]

theorem parseStr_encode : ∀ (l rest : List Char),
    parseStrChars (escapeChars l ++ '"' :: rest) = .ok (l, rest) := by
  intro l
  induction l with
  | nil =>
    intro rest
    rw [show escapeChars ([] : List Char) ++ '"' :: rest = '"' :: rest from rfl]
    exact parseStrChars_quote rest
  | cons c l ih =>
    intro rest
    rw [show escapeChars (c :: l) = escapeChar c ++ escapeChars l from rfl]
    by_cases h1 : c = '"'
    · subst h1
      rw [show escapeChar '"' = ['\\', '"'] by decide]
      rw [show (['\\', '"'] ++ escapeChars l) ++ '"' :: rest
          = '\\' :: '"' :: (escapeChars l ++ '"' :: rest) by simp]
      rw [parseStrChars_esc '"' _ '"' (by decide) (by decide), ih rest]
    · by_cases h2 : c = '\\'
      · subst h2
        rw [show escapeChar '\\' = ['\\', '\\'] by decide]
        rw [show (['\\', '\\'] ++ escapeChars l) ++ '"' :: rest
            = '\\' :: '\\' :: (escapeChars l ++ '"' :: rest) by simp]
        rw [parseStrChars_esc '\\' _ '\\' (by decide) (by decide), ih rest]
      · by_cases h3 : c.toNat < 32
        · rw [show escapeChar c = ['\\', 'u', '0', '0', hexDigit (c.toNat / 16),
              hexDigit (c.toNat % 16)] by simp [escapeChar, h1, h2, h3]]
          rw [show (['\\', 'u', '0', '0', hexDigit (c.toNat / 16),
              hexDigit (c.toNat % 16)] ++ escapeChars l) ++ '"' :: rest
              = '\\' :: 'u' :: '0' :: '0' :: hexDigit (c.toNat / 16)
                :: hexDigit (c.toNat % 16) :: (escapeChars l ++ '"' :: rest) by simp]
          rw [parseStrChars_hex '0' '0' (hexDigit (c.toNat / 16))
              (hexDigit (c.toNat % 16)) _ 0 0 (c.toNat / 16) (c.toNat % 16)
              (by decide) (by decide)
              (hexDigit_hexVal _ (by omega)) (hexDigit_hexVal _ (by omega)),
            ih rest]
          have hv : c.toNat / 16 * 16 + c.toNat % 16 = c.toNat := by
            omega
          simp [hv, Char.ofNat_toNat]
        · rw [show escapeChar c = [c] by simp [escapeChar, h1, h2, h3]]
          rw [show ([c] ++ escapeChars l) ++ '"' :: rest
              = c :: (escapeChars l ++ '"' :: rest) by simp]
          rw [parseStrChars_raw c _ h1 h2, ih rest]

/-!
## Lemmas: the parser re-reads the encoder's output
-/

theorem skipWs_notWs (c : Char) (cs : List Char) (h : isWs c = false) :
    skipWs (c :: cs) = c :: cs := by
  simp [skipWs, h]

theorem numSafe_head (c : Char) (r : List Char) :
    numSafe (c :: r) = !(c.isDigit || c = '.' || c = 'e' || c = 'E') := rfl

theorem intToChars_head (i : Int) :
    ∃ c t, intToChars i = c :: t ∧ (c = '-' ∨ c.isDigit = true) := by
  obtain ⟨d, t, hdt, hdig⟩ := natToChars_head i.natAbs
  by_cases hneg : i < 0
  · exact ⟨'-', natToChars i.natAbs, by simp [intToChars, hneg], Or.inl rfl⟩
  · exact ⟨d, t, by simp [intToChars, hneg, hdt], Or.inr hdig⟩

theorem encodeJsonAux_head (v : Json) :
    ∃ c t, encodeJsonAux v = c :: t ∧ isWs c = false ∧ c ≠ ']' := by
  cases v with
  | null => exact ⟨'n', ['u', 'l', 'l'], rfl, by decide, by decide⟩
  | bool b =>
    cases b with
    | true => exact ⟨'t', ['r', 'u', 'e'], rfl, by decide, by decide⟩
    | false => exact ⟨'f', ['a', 'l', 's', 'e'], rfl, by decide, by decide⟩
  | num mant e =>
    obtain ⟨c, t, hct, hc⟩ := intToChars_head mant
    refine ⟨c, t ++ (if e = 0 then [] else 'e' :: intToChars e),
      by simp [encodeJsonAux, encodeNum, hct], ?_, ?_⟩
    · rcases hc with h | h
      · subst h; decide
      · exact isDigit_not_ws c h
    · rcases hc with h | h
      · subst h; decide
      · exact ne_of_isDigit c ']' h (by decide)
  | str s =>
    exact ⟨'"', escapeChars s.data ++ ['"'], by simp [encodeJsonAux, encodeStr],
      by decide, by decide⟩
  | arr xs =>
    exact ⟨'[', encodeElems xs ++ [']'], by simp [encodeJsonAux], by decide, by decide⟩
  | obj fs =>
    exact ⟨'\x7b', encodeFields fs ++ ['\x7d'], by simp [encodeJsonAux], by decide, by decide⟩

theorem skipWs_encode (v : Json) (X : List Char) :
    skipWs (encodeJsonAux v ++ X) = encodeJsonAux v ++ X := by
  obtain ⟨c, t, hct, hws, _⟩ := encodeJsonAux_head v
  rw [hct, List.cons_append]
  exact skipWs_notWs c (t ++ X) hws

theorem encodeElems_cons_shape (x : Json) (tl : JsonList) :
    ∃ s, encodeElems (.cons x tl) = encodeJsonAux x ++ s := by
  cases tl with
  | nil => exact ⟨[], by simp [encodeElems]⟩
  | cons y tl' => exact ⟨',' :: encodeElems (.cons y tl'), by simp [encodeElems]⟩

theorem encodeFields_cons_shape (k : String) (v : Json) (tl : JsonFields) :
    ∃ s, encodeFields (.cons k v tl) = '"' :: s := by
  cases tl with
  | nil =>
    exact ⟨escapeChars k.data ++ '"' :: ':' :: encodeJsonAux v,
      by simp [encodeFields, encodeStr]⟩
  | cons k' v' tl' =>
    exact ⟨escapeChars k.data ++ '"' :: ':' :: (encodeJsonAux v
        ++ ',' :: encodeFields (.cons k' v' tl')),
      by simp [encodeFields, encodeStr]⟩

theorem parseValue_str (fuel : Nat) (cs : List Char) (s r : List Char)
    (h : parseStrChars cs = .ok (s, r)) :
    parseValue (fuel + 1) ('"' :: cs) = .ok (.str ⟨s⟩, r) := by
  conv_lhs => rw [parseValue.eq_def]
  simp [h, parseStrTop]

theorem parseValue_null (fuel : Nat) (rest : List Char) :
    parseValue (fuel + 1) ('n' :: 'u' :: 'l' :: 'l' :: rest) = .ok (.null, rest) := by
  conv_lhs => rw [parseValue.eq_def]
  simp [parseLitNull]

theorem parseValue_true (fuel : Nat) (rest : List Char) :
    parseValue (fuel + 1) ('t' :: 'r' :: 'u' :: 'e' :: rest) = .ok (.bool true, rest) := by
  conv_lhs => rw [parseValue.eq_def]
  simp [parseLitTrue]

theorem parseValue_false (fuel : Nat) (rest : List Char) :
    parseValue (fuel + 1) ('f' :: 'a' :: 'l' :: 's' :: 'e' :: rest) = .ok (.bool false, rest) := by
  conv_lhs => rw [parseValue.eq_def]
  simp [parseLitFalse]

theorem parseValue_arrNil (fuel : Nat) (r : List Char) :
    parseValue (fuel + 1) ('[' :: ']' :: r) = .ok (.arr .nil, r) := by
  conv_lhs => rw [parseValue.eq_def]
  simp [parseArrBody, skipWs_notWs ']' r (by decide)]

theorem parseValue_arrCons (fuel : Nat) (cs : List Char) (c : Char) (X : List Char)
    (h : skipWs cs = c :: X) (hbr : ¬ c = ']') (xs : JsonList) (r' : List Char)
    (hp : parseElems fuel (c :: X) = .ok (xs, r')) :
    parseValue (fuel + 1) ('[' :: cs) = .ok (.arr xs, r') := by
  conv_lhs => rw [parseValue.eq_def]
  simp [parseArrBody, h, hbr, hp]

theorem parseValue_objNil (fuel : Nat) (r : List Char) :
    parseValue (fuel + 1) ('\x7b' :: '\x7d' :: r) = .ok (.obj .nil, r) := by
  conv_lhs => rw [parseValue.eq_def]
  simp [parseObjBody, skipWs_notWs '\x7d' r (by decide)]

theorem parseValue_objCons (fuel : Nat) (cs : List Char) (c : Char) (X : List Char)
    (h : skipWs cs = c :: X) (hbr : ¬ c = '\x7d') (fs : JsonFields) (r' : List Char)
    (hp : parseFields fuel (c :: X) = .ok (fs, r')) :
    parseValue (fuel + 1) ('\x7b' :: cs) = .ok (.obj fs, r') := by
  conv_lhs => rw [parseValue.eq_def]
  simp [parseObjBody, h, hbr, hp]

theorem parseValue_num (fuel : Nat) (c : Char) (cs : List Char)
    (h : c = '-' ∨ c.isDigit = true) :
    parseValue (fuel + 1) (c :: cs) = parseNum (c :: cs) := by
  have h1 : ¬ c = '"' := by
    rcases h with h | h
    · subst h; decide
    · exact ne_of_isDigit c '"' h (by decide)
  have h2 : ¬ c = '[' := by
    rcases h with h | h
    · subst h; decide
    · exact ne_of_isDigit c '[' h (by decide)
  have h3 : ¬ c = '\x7b' := by
    rcases h with h | h
    · subst h; decide
    · exact ne_of_isDigit c '\x7b' h (by decide)
  have h4 : ¬ c = 'n' := by
    rcases h with h | h
    · subst h; decide
    · exact ne_of_isDigit c 'n' h (by decide)
  have h5 : ¬ c = 't' := by
    rcases h with h | h
    · subst h; decide
    · exact ne_of_isDigit c 't' h (by decide)
  have h6 : ¬ c = 'f' := by
    rcases h with h | h
    · subst h; decide
    · exact ne_of_isDigit c 'f' h (by decide)
  conv_lhs => rw [parseValue.eq_def]
  simp [h1, h2, h3, h4, h5, h6, h]

theorem parseElems_last (fuel : Nat) (cs : List Char) (v : Json) (r r' : List Char)
    (hv : parseValue fuel (skipWs cs) = .ok (v, r)) (hr : skipWs r = ']' :: r') :
    parseElems (fuel + 1) cs = .ok (.cons v .nil, r') := by
  conv_lhs => rw [parseElems.eq_def]
  simp [hv, hr]

theorem parseElems_more (fuel : Nat) (cs : List Char) (v : Json) (r r' : List Char)
    (xs : JsonList) (r'' : List Char)
    (hv : parseValue fuel (skipWs cs) = .ok (v, r)) (hr : skipWs r = ',' :: r')
    (hrec : parseElems fuel r' = .ok (xs, r'')) :
    parseElems (fuel + 1) cs = .ok (.cons v xs, r'') := by
  conv_lhs => rw [parseElems.eq_def]
  simp [hv, hr, hrec]

theorem parseFields_last (fuel : Nat) (cs : List Char) (r k r1 r2 : List Char)
    (v : Json) (r3 r4 : List Char)
    (h0 : skipWs cs = '"' :: r)
    (hk : parseStrChars r = .ok (k, r1))
    (h1 : skipWs r1 = ':' :: r2)
    (hv : parseValue fuel (skipWs r2) = .ok (v, r3))
    (h3 : skipWs r3 = '\x7d' :: r4) :
    parseFields (fuel + 1) cs = .ok (.cons ⟨k⟩ v .nil, r4) := by
  conv_lhs => rw [parseFields.eq_def]
  simp [h0, hk, h1, hv, h3]

theorem parseFields_more (fuel : Nat) (cs : List Char) (r k r1 r2 : List Char)
    (v : Json) (r3 r4 : List Char) (fs : JsonFields) (r5 : List Char)
    (h0 : skipWs cs = '"' :: r)
    (hk : parseStrChars r = .ok (k, r1))
    (h1 : skipWs r1 = ':' :: r2)
    (hv : parseValue fuel (skipWs r2) = .ok (v, r3))
    (h3 : skipWs r3 = ',' :: r4)
    (hrec : parseFields fuel r4 = .ok (fs, r5)) :
    parseFields (fuel + 1) cs = .ok (.cons ⟨k⟩ v fs, r5) := by
  conv_lhs => rw [parseFields.eq_def]
  simp [h0, hk, h1, hv, h3, hrec]

mutual

/-- The parser reads back exactly what the encoder wrote, leaving the rest
of the input untouched, whenever the rest cannot extend a number literal. -/
theorem parseV_encode : ∀ (v : Json) (fuel : Nat) (rest : List Char),
    jfuelV v ≤ fuel → numSafe rest = true →
    parseValue fuel (encodeJsonAux v ++ rest) = .ok (v, rest)
  | .null, fuel, rest, hf, _ => by
    cases fuel with
    | zero => simp [jfuelV] at hf
    | succ g => exact parseValue_null g rest
  | .bool true, fuel, rest, hf, _ => by
    cases fuel with
    | zero => simp [jfuelV] at hf
    | succ g => exact parseValue_true g rest
  | .bool false, fuel, rest, hf, _ => by
    cases fuel with
    | zero => simp [jfuelV] at hf
    | succ g => exact parseValue_false g rest
  | .num mant e, fuel, rest, hf, hs => by
    cases fuel with
    | zero => simp [jfuelV] at hf
    | succ g =>
      obtain ⟨c, t, hct, hc⟩ := intToChars_head mant
      have hshape : encodeNum mant e ++ rest
          = c :: (t ++ ((if e = 0 then [] else 'e' :: intToChars e) ++ rest)) := by
        simp [encodeNum, hct]
      have henc : encodeJsonAux (.num mant e) = encodeNum mant e := by
        simp [encodeJsonAux]
      rw [henc, hshape, parseValue_num g c _ hc, ← hshape]
      exact parseNum_encode mant e rest hs
  | .str s, fuel, rest, hf, _ => by
    cases fuel with
    | zero => simp [jfuelV] at hf
    | succ g =>
      have hshape : encodeJsonAux (.str s) ++ rest
          = '"' :: (escapeChars s.data ++ '"' :: rest) := by
        simp [encodeJsonAux, encodeStr]
      rw [hshape, parseValue_str g _ s.data rest (parseStr_encode s.data rest)]
  | .arr .nil, fuel, rest, hf, _ => by
    cases fuel with
    | zero => simp [jfuelV] at hf
    | succ g =>
      have hshape : encodeJsonAux (.arr .nil) ++ rest = '[' :: ']' :: rest := by
        simp [encodeJsonAux, encodeElems]
      rw [hshape]
      exact parseValue_arrNil g rest
  | .arr (.cons x tl), fuel, rest, hf, hs => by
    cases fuel with
    | zero => simp [jfuelV] at hf
    | succ g =>
      obtain ⟨c, t, hct, hws, hbr⟩ := encodeJsonAux_head x
      obtain ⟨s, hsx⟩ := encodeElems_cons_shape x tl
      have hlist : encodeElems (.cons x tl) ++ ']' :: rest
          = c :: (t ++ (s ++ ']' :: rest)) := by
        rw [hsx, hct]
        simp
      have hskip : skipWs (encodeElems (.cons x tl) ++ ']' :: rest)
          = c :: (t ++ (s ++ ']' :: rest)) := by
        rw [hlist]
        exact skipWs_notWs c _ hws
      have hfe : jfuelElems (.cons x tl) ≤ g := by
        simp [jfuelV, jfuelElems] at hf ⊢
        omega
      have hp : parseElems g (c :: (t ++ (s ++ ']' :: rest))) = .ok (.cons x tl, rest) := by
        rw [← hlist]
        exact parseElems_encode x tl g rest hfe hs
      have hshape : encodeJsonAux (.arr (.cons x tl)) ++ rest
          = '[' :: (encodeElems (.cons x tl) ++ ']' :: rest) := by
        simp [encodeJsonAux]
      rw [hshape]
      exact parseValue_arrCons g _ c _ hskip hbr (.cons x tl) rest hp
  | .obj .nil, fuel, rest, hf, _ => by
    cases fuel with
    | zero => simp [jfuelV] at hf
    | succ g =>
      have hshape : encodeJsonAux (.obj .nil) ++ rest = '\x7b' :: '\x7d' :: rest := by
        simp [encodeJsonAux, encodeFields]
      rw [hshape]
      exact parseValue_objNil g rest
  | .obj (.cons k v tl), fuel, rest, hf, hs => by
    cases fuel with
    | zero => simp [jfuelV] at hf
    | succ g =>
      obtain ⟨s, hsk⟩ := encodeFields_cons_shape k v tl
      have hlist : encodeFields (.cons k v tl) ++ '\x7d' :: rest
          = '"' :: (s ++ '\x7d' :: rest) := by
        rw [hsk]
        simp
      have hskip : skipWs (encodeFields (.cons k v tl) ++ '\x7d' :: rest)
          = '"' :: (s ++ '\x7d' :: rest) := by
        rw [hlist]
        exact skipWs_notWs '"' _ (by decide)
      have hff : jfuelFields (.cons k v tl) ≤ g := by
        simp [jfuelV, jfuelFields] at hf ⊢
        omega
      have hp : parseFields g ('"' :: (s ++ '\x7d' :: rest)) = .ok (.cons k v tl, rest) := by
        rw [← hlist]
        exact parseFields_encode k v tl g rest hff hs
      have hshape : encodeJsonAux (.obj (.cons k v tl)) ++ rest
          = '\x7b' :: (encodeFields (.cons k v tl) ++ '\x7d' :: rest) := by
        simp [encodeJsonAux]
      rw [hshape]
      exact parseValue_objCons g _ '"' _ hskip (by decide) (.cons k v tl) rest hp
termination_by v _ _ _ _ => sizeOf v

/-- `parseElems` reads back an encoded nonempty element list followed by the
closing bracket. -/
theorem parseElems_encode : ∀ (x : Json) (tl : JsonList) (fuel : Nat) (rest : List Char),
    jfuelElems (.cons x tl) ≤ fuel → numSafe rest = true →
    parseElems fuel (encodeElems (.cons x tl) ++ ']' :: rest) = .ok (.cons x tl, rest)
  | x, .nil, fuel, rest, hf, hs => by
    cases fuel with
    | zero => simp [jfuelElems] at hf
    | succ g =>
      have hjx : jfuelV x ≤ g := by
        simp [jfuelElems] at hf
        omega
      have hlist : encodeElems (.cons x .nil) ++ ']' :: rest
          = encodeJsonAux x ++ ']' :: rest := by
        simp [encodeElems]
      have hv : parseValue g (skipWs (encodeJsonAux x ++ ']' :: rest))
          = .ok (x, ']' :: rest) := by
        rw [skipWs_encode]
        exact parseV_encode x g (']' :: rest) hjx (by rw [numSafe_head]; decide)
      rw [hlist]
      exact parseElems_last g _ x (']' :: rest) rest hv (skipWs_notWs ']' rest (by decide))
  | x, .cons y tl', fuel, rest, hf, hs => by
    cases fuel with
    | zero => simp [jfuelElems] at hf
    | succ g =>
      have hjx : jfuelV x ≤ g := by
        simp [jfuelElems] at hf
        omega
      have hlist : encodeElems (.cons x (.cons y tl')) ++ ']' :: rest
          = encodeJsonAux x ++ ',' :: (encodeElems (.cons y tl') ++ ']' :: rest) := by
        simp [encodeElems]
      have hrec : parseElems g (encodeElems (.cons y tl') ++ ']' :: rest)
          = .ok (.cons y tl', rest) :=
        parseElems_encode y tl' g rest (by
          simp [jfuelElems] at hf ⊢
          omega) hs
      have hv : parseValue g (skipWs (encodeJsonAux x
            ++ ',' :: (encodeElems (.cons y tl') ++ ']' :: rest)))
          = .ok (x, ',' :: (encodeElems (.cons y tl') ++ ']' :: rest)) := by
        rw [skipWs_encode]
        exact parseV_encode x g _ hjx (by rw [numSafe_head]; decide)
      rw [hlist]
      exact parseElems_more g _ x _ _ (.cons y tl') rest hv
        (skipWs_notWs ',' _ (by decide)) hrec
termination_by x tl _ _ _ _ => sizeOf (JsonList.cons x tl)

/-- `parseFields` reads back an encoded nonempty member list followed by the
closing brace. -/
theorem parseFields_encode : ∀ (k : String) (v : Json) (tl : JsonFields) (fuel : Nat)
    (rest : List Char),
    jfuelFields (.cons k v tl) ≤ fuel → numSafe rest = true →
    parseFields fuel (encodeFields (.cons k v tl) ++ '\x7d' :: rest) = .ok (.cons k v tl, rest)
  | k, v, .nil, fuel, rest, hf, hs => by
    cases fuel with
    | zero => simp [jfuelFields] at hf
    | succ g =>
      have hjv : jfuelV v ≤ g := by
        simp [jfuelFields] at hf
        omega
      have hlist : encodeFields (.cons k v .nil) ++ '\x7d' :: rest
          = '"' :: (escapeChars k.data
              ++ '"' :: (':' :: (encodeJsonAux v ++ '\x7d' :: rest))) := by
        simp [encodeFields, encodeStr]
      have hv : parseValue g (skipWs (encodeJsonAux v ++ '\x7d' :: rest))
          = .ok (v, '\x7d' :: rest) := by
        rw [skipWs_encode]
        exact parseV_encode v g _ hjv (by rw [numSafe_head]; decide)
      rw [hlist]
      exact parseFields_last g _ _ k.data _ _ v _ rest
        (skipWs_notWs '"' _ (by decide))
        (parseStr_encode k.data (':' :: (encodeJsonAux v ++ '\x7d' :: rest)))
        (skipWs_notWs ':' _ (by decide)) hv (skipWs_notWs '\x7d' rest (by decide))
  | k, v, .cons k' v' tl', fuel, rest, hf, hs => by
    cases fuel with
    | zero => simp [jfuelFields] at hf
    | succ g =>
      have hjv : jfuelV v ≤ g := by
        simp [jfuelFields] at hf
        omega
      have hlist : encodeFields (.cons k v (.cons k' v' tl')) ++ '\x7d' :: rest
          = '"' :: (escapeChars k.data ++ '"' :: (':' :: (encodeJsonAux v
              ++ ',' :: (encodeFields (.cons k' v' tl') ++ '\x7d' :: rest)))) := by
        simp [encodeFields, encodeStr]
      have hrec : parseFields g (encodeFields (.cons k' v' tl') ++ '\x7d' :: rest)
          = .ok (.cons k' v' tl', rest) :=
        parseFields_encode k' v' tl' g rest (by
          simp [jfuelFields] at hf ⊢
          omega) hs
      have hv : parseValue g (skipWs (encodeJsonAux v
            ++ ',' :: (encodeFields (.cons k' v' tl') ++ '\x7d' :: rest)))
          = .ok (v, ',' :: (encodeFields (.cons k' v' tl') ++ '\x7d' :: rest)) := by
        rw [skipWs_encode]
        exact parseV_encode v g _ hjv (by rw [numSafe_head]; decide)
      rw [hlist]
      exact parseFields_more g _ _ k.data _ _ v _ _ (.cons k' v' tl') rest
        (skipWs_notWs '"' _ (by decide))
        (parseStr_encode k.data (':' :: (encodeJsonAux v
          ++ ',' :: (encodeFields (.cons k' v' tl') ++ '\x7d' :: rest))))
        (skipWs_notWs ':' _ (by decide)) hv
        (skipWs_notWs ',' _ (by decide)) hrec
termination_by k v tl _ _ _ _ => sizeOf (JsonFields.cons k v tl)

end

mutual

/-- The fuel an encoded value needs is within the fuel `decodeJson` grants. -/
theorem jfuelV_le : ∀ (v : Json), jfuelV v ≤ 2 * (encodeJsonAux v).length
  | .null => by decide
  | .bool true => by decide
  | .bool false => by decide
  | .num mant e => by
    have hne : intToChars mant ≠ [] := by
      by_cases h : mant < 0
      · simp [intToChars, h]
      · simp [intToChars, h]
        exact natToChars_ne_nil _
    have hpos : 0 < (intToChars mant).length := List.length_pos.mpr hne
    simp [jfuelV, encodeJsonAux, encodeNum]
    omega
  | .str s => by
    simp [jfuelV, encodeJsonAux, encodeStr]
    omega
  | .arr xs => by
    have h := jfuelElems_le xs
    simp [jfuelV, encodeJsonAux]
    omega
  | .obj fs => by
    have h := jfuelFields_le fs
    simp [jfuelV, encodeJsonAux]
    omega

theorem jfuelElems_le : ∀ (xs : JsonList), jfuelElems xs ≤ 2 * (encodeElems xs).length + 2
  | .nil => by simp [jfuelElems]
  | .cons x .nil => by
    have h := jfuelV_le x
    simp [jfuelElems, encodeElems]
    omega
  | .cons x (.cons y tl) => by
    have h1 := jfuelV_le x
    have h2 := jfuelElems_le (.cons y tl)
    simp [jfuelElems, encodeElems] at h2 ⊢
    omega

theorem jfuelFields_le : ∀ (fs : JsonFields), jfuelFields fs ≤ 2 * (encodeFields fs).length + 2
  | .nil => by simp [jfuelFields]
  | .cons k v .nil => by
    have h := jfuelV_le v
    simp [jfuelFields, encodeFields, encodeStr]
    omega
  | .cons k v (.cons k' v' tl) => by
    have h1 := jfuelV_le v
    have h2 := jfuelFields_le (.cons k' v' tl)
    simp [jfuelFields, encodeFields, encodeStr] at h2 ⊢
    omega

end

/-- Decoding inverts encoding: the codec round-trips every value tree. -/
theorem decode_encode (v : Json) : decodeJson (encodeJson v) = .ok v := by
  have hlen : jfuelV v ≤ 2 * (encodeJsonAux v).length + 2 :=
    le_trans (jfuelV_le v) (by omega)
  have hp : parseValue (2 * (encodeJsonAux v).length + 2) (encodeJsonAux v ++ [])
      = .ok (v, []) := parseV_encode v _ [] hlen rfl
  rw [List.append_nil] at hp
  have hskip : skipWs (encodeJsonAux v) = encodeJsonAux v := by
    have h := skipWs_encode v []
    simpa using h
  simp [decodeJson, encodeJson, String.length, hskip, hp, skipWs]

/-!
## Lemmas: the top-level pipeline
-/

theorem Mask_decode_error (m : masker) (input : String) (mp : List String) (e : String)
    (h : decodeJson input = .error e) :
    Mask m input mp = .error (.unmarshalFailed e) := by
  simp [Mask, h]

theorem Mask_walk_ok (m : masker) (input : String) (mp : List String) (v w : Json)
    (tr : List LogEvent) (hdec : decodeJson input = .ok v)
    (hw : maskWithPaths m mp ("$") v = (.ok (.json w), tr)) :
    Mask m input mp = .ok (encodeJson w) := by
  simp [Mask, hdec, hw]

theorem isMaskedPath_index (p : String) (rules : List String) (i : Nat) :
    isMaskedPath (p ++ "[" ++ natToString i ++ "]") rules
      = rules.contains (normalizePath p ++ "[]") := by
  unfold isMaskedPath
  rw [normalizePath_index]

theorem rootIndex_masked (i : Nat) :
    isMaskedPath ("$" ++ "[" ++ natToString i ++ "]") ["$[]"] = true := by
  rw [isMaskedPath_index]
  rfl

theorem walk_rootArr (m : masker) (f : Json → String) (xs : JsonList)
    (hf : m.maskFunc = some f) :
    ∃ tr, maskWithPaths m ["$[]"] ("$") (.arr xs)
      = (.ok (.json (.arr (JsonList.map (fun x => .str (f x)) xs))), tr) := by
  obtain ⟨tr, he⟩ := maskElems_allMasked m f ["$[]"] ("$") xs 0 hf rootIndex_masked
  exact ⟨_, maskWithPaths_arr_ok m ["$[]"] ("$") xs _ tr rfl he⟩

/-!
## The claims
-/

/-- C1: a visited non-null node is masked exactly when the rule set
contains the canonicalized form of its path, with the exact-equality
examples for `$.a.b`.  A null object entry or array element whose path is
in the rule set is likewise masked — the rule check precedes the nil check —
and the one exception is a null document root, which is returned before the
rule check and never masked (see the counterexample). -/
theorem C1_exact_canonical_match :
    (∀ (m : masker) (rules : List String) (p : String) (v : Json), v ≠ Json.null →
        ((LogEvent.masking p ∈ (maskWithPaths m rules p v).2)
          ↔ isMaskedPath p rules = true))
    ∧ isMaskedPath ("$.a.b") ["$.a.b"] = true
    ∧ isMaskedPath ("$.a.bb") ["$.a.b"] = false
    ∧ isMaskedPath ("$.a") ["$.a.b"] = false
    ∧ isMaskedPath ("$.a.b.c") ["$.a.b"] = false
    ∧ (∀ (m : masker) (f : Json → String) (rules : List String) (p k : String)
        (tl gs : JsonFields) (tr : List LogEvent),
        m.maskFunc = some f → isMaskedPath (p ++ "." ++ k) rules = true →
        maskFields m rules p tl = (.ok gs, tr) →
        maskFields m rules p (.cons k Json.null tl)
          = (.ok (.cons k (.str (f Json.null)) gs),
             .processing (p ++ "." ++ k) :: .masking (p ++ "." ++ k) :: tr))
    ∧ (∀ (m : masker) (f : Json → String) (rules : List String) (p : String) (i : Nat)
        (tl ys : JsonList) (tr : List LogEvent),
        m.maskFunc = some f → isMaskedPath (p ++ "[" ++ natToString i ++ "]") rules = true →
        maskElems m rules p (i + 1) tl = (.ok ys, tr) →
        maskElems m rules p i (.cons Json.null tl)
          = (.ok (.cons (.str (f Json.null)) ys),
             .processing (p ++ "[" ++ natToString i ++ "]")
               :: .masking (p ++ "[" ++ natToString i ++ "]") :: tr))
    ∧ (∀ (m : masker) (rules : List String) (p : String),
        maskWithPaths m rules p Json.null = (.ok .invalidValue, [.processing p])) :=
  ⟨fun m rules p v hv => masked_iff_trace m rules p v hv, rfl, rfl, rfl, rfl,
   fun m f rules p k tl gs tr hf hmem htl =>
     maskFields_cons_masked m rules p k Json.null tl gs tr f hf hmem htl,
   fun m f rules p i tl ys tr hf hmem htl =>
     maskElems_cons_masked m rules p i Json.null tl ys tr f hf hmem htl,
   fun m rules p => maskWithPaths_null m rules p⟩

/-- Witness for C1 at a concrete non-null node and a concrete masked null
object entry, with the end-to-end pipeline output for the latter. -/
theorem C1_exact_canonical_match_witness :
    (Json.bool true ≠ Json.null)
    ∧ ((LogEvent.masking ("$.x") ∈ (maskWithPaths mRED ["$.x"] ("$.x") (Json.bool true)).2)
        ↔ isMaskedPath ("$.x") ["$.x"] = true)
    ∧ maskFields mRED ["$.a"] ("$") (.cons ("a") Json.null .nil)
        = (.ok (.cons ("a") (.str ("[REDACTED]")) .nil),
           [.processing ("$.a"), .masking ("$.a")])
    ∧ Mask mRED ("\x7b\"a\":null\x7d") ["$.a"] = .ok ("\x7b\"a\":\"[REDACTED]\"\x7d") :=
  ⟨fun h => Json.noConfusion h,
   C1_exact_canonical_match.1 mRED ["$.x"] ("$.x") (Json.bool true) (fun h => Json.noConfusion h),
   C1_exact_canonical_match.2.2.2.2.2.1 mRED fRED ["$.a"] ("$") ("a") .nil .nil [] rfl rfl rfl,
   rfl⟩

/-- Counterexample to C1 as stated: the null root's path `$` is in the rule
set, yet the walk emits no masking event for it (the null check precedes the
rule check). -/
theorem C1_exact_canonical_match_counterexample :
    isMaskedPath ("$") ["$"] = true
    ∧ maskWithPaths mRED ["$"] ("$") Json.null = (.ok .invalidValue, [.processing ("$")])
    ∧ ¬ (LogEvent.masking ("$") ∈ (maskWithPaths mRED ["$"] ("$") Json.null).2) :=
  ⟨rfl, rfl, by decide⟩

/-- C2: with rule `$.items[]` every concrete index path `$.items[i]` is
masked, and the walk replaces every element of the `items` array, whatever
its length. -/
theorem C2_array_index_invariance :
    (∀ i : Nat, isMaskedPath ("$.items" ++ "[" ++ natToString i ++ "]") ["$.items[]"] = true)
    ∧ ∀ (m : masker) (f : Json → String) (xs : JsonList) (i : Nat),
        m.maskFunc = some f →
        ∃ tr, maskElems m ["$.items[]"] ("$.items") i xs
          = (.ok (JsonList.map (fun x => .str (f x)) xs), tr) := by
  constructor
  · intro i
    rw [isMaskedPath_index]
    rfl
  · intro m f xs i hf
    exact maskElems_allMasked m f ["$.items[]"] ("$.items") xs i hf
      (fun j => by rw [isMaskedPath_index]; rfl)

/-- Witness for C2 at indices 0 and 5 and a concrete two-element array. -/
theorem C2_array_index_invariance_witness :
    isMaskedPath ("$.items" ++ "[" ++ natToString 0 ++ "]") ["$.items[]"] = true
    ∧ isMaskedPath ("$.items" ++ "[" ++ natToString 5 ++ "]") ["$.items[]"] = true
    ∧ mRED.maskFunc = some fRED
    ∧ ∃ tr, maskElems mRED ["$.items[]"] ("$.items") 0
        (.cons (.num 1 0) (.cons (.num 2 0) .nil))
        = (.ok (JsonList.map (fun x => .str (fRED x))
            (.cons (.num 1 0) (.cons (.num 2 0) .nil))), tr) :=
  ⟨C2_array_index_invariance.1 0, C2_array_index_invariance.1 5, rfl,
   C2_array_index_invariance.2 mRED fRED (.cons (.num 1 0) (.cons (.num 2 0) .nil)) 0 rfl⟩

/-- C3: a non-null node whose canonical path is in the rule set is replaced
wholesale by the mask function's output, and the walk's trace for it is
exactly its own processing and masking events — no descendant is visited or
tested.  A null object entry or array element at a masked path is likewise
replaced by the mask output applied to the null value; the one exception is
a null document root, which is returned unreplaced before the rule check
(see the counterexample). -/
theorem C3_masked_subtree_replaced :
    (∀ (m : masker) (f : Json → String) (rules : List String) (p : String) (v : Json),
        m.maskFunc = some f → isMaskedPath p rules = true → v ≠ Json.null →
        maskWithPaths m rules p v = (.ok (.json (.str (f v))), [.processing p, .masking p]))
    ∧ (∀ (m : masker) (f : Json → String) (rules : List String) (p k : String),
        m.maskFunc = some f → isMaskedPath (p ++ "." ++ k) rules = true →
        maskFields m rules p (.cons k Json.null .nil)
          = (.ok (.cons k (.str (f Json.null)) .nil),
             [.processing (p ++ "." ++ k), .masking (p ++ "." ++ k)]))
    ∧ (∀ (m : masker) (f : Json → String) (rules : List String) (p : String) (i : Nat),
        m.maskFunc = some f → isMaskedPath (p ++ "[" ++ natToString i ++ "]") rules = true →
        maskElems m rules p i (.cons Json.null .nil)
          = (.ok (.cons (.str (f Json.null)) .nil),
             [.processing (p ++ "[" ++ natToString i ++ "]"),
              .masking (p ++ "[" ++ natToString i ++ "]")]))
    ∧ (∀ (m : masker) (rules : List String) (p : String),
        maskWithPaths m rules p Json.null = (.ok .invalidValue, [.processing p])) :=
  ⟨fun m f rules p v hf hmem hv => maskWithPaths_masked m rules p v f hf hmem hv,
   fun m f rules p k hf hmem =>
     maskFields_cons_masked m rules p k Json.null .nil .nil [] f hf hmem
       (maskFields_nil m rules p),
   fun m f rules p i hf hmem =>
     maskElems_cons_masked m rules p i Json.null .nil .nil [] f hf hmem
       (maskElems_nil m rules p (i + 1)),
   fun m rules p => maskWithPaths_null m rules p⟩

/-- Witness for C3: a masked two-field object collapses to the fixed string
with neither field visited, and a masked null array element is replaced,
also end to end. -/
theorem C3_masked_subtree_replaced_witness :
    mRED.maskFunc = some fRED
    ∧ maskWithPaths mRED ["$.a"] ("$.a")
        (Json.obj (.cons ("b") (.num 1 0) (.cons ("c") (.num 2 0) .nil)))
      = (.ok (.json (.str ("[REDACTED]"))), [.processing ("$.a"), .masking ("$.a")])
    ∧ maskElems mRED ["$[]"] ("$") 0 (.cons Json.null .nil)
        = (.ok (.cons (.str ("[REDACTED]")) .nil),
           [.processing ("$[0]"), .masking ("$[0]")])
    ∧ Mask mRED ("[null]") ["$[]"] = .ok ("[\"[REDACTED]\"]") :=
  ⟨rfl,
   C3_masked_subtree_replaced.1 mRED fRED ["$.a"] ("$.a")
     (Json.obj (.cons ("b") (.num 1 0) (.cons ("c") (.num 2 0) .nil)))
     rfl rfl (fun h => Json.noConfusion h),
   C3_masked_subtree_replaced.2.2.1 mRED fRED ["$[]"] ("$") 0 rfl rfl,
   rfl⟩

/-- Counterexample to C3 as stated: a null document root whose path `$` is
in the rule set is not replaced by the mask output — the walk returns the
invalid value and `Mask` encodes it as an empty object. -/
theorem C3_masked_subtree_replaced_counterexample :
    isMaskedPath ("$") ["$"] = true
    ∧ Mask mRED ("null") ["$"] = .ok ("\x7b\x7d") :=
  ⟨rfl, rfl⟩

/-- C4: a rule set containing `$` masks the whole (non-null) document; a
rule set containing `$[]` does not mask the whole document but each
top-level element of an array document — the correction, witnessed by the
counterexample where `$[]` leaves an object document untouched. -/
theorem C4_root_masking :
    (∀ (m : masker) (f : Json → String) (doc : String) (v : Json),
        m.maskFunc = some f → decodeJson doc = .ok v → v ≠ Json.null →
        Mask m doc ["$"] = .ok (encodeJson (.str (f v))))
    ∧ (∀ (m : masker) (f : Json → String) (doc : String) (xs : JsonList),
        m.maskFunc = some f → decodeJson doc = .ok (.arr xs) →
        Mask m doc ["$[]"] = .ok (encodeJson (.arr (JsonList.map (fun x => .str (f x)) xs)))) := by
  constructor
  · intro m f doc v hf hdec hv
    exact Mask_walk_ok m doc ["$"] v (.str (f v)) _ hdec
      (maskWithPaths_masked m ["$"] ("$") v f hf rfl hv)
  · intro m f doc xs hf hdec
    obtain ⟨tr, hw⟩ := walk_rootArr m f xs hf
    exact Mask_walk_ok m doc ["$[]"] (.arr xs) _ tr hdec hw

/-- Witness for C4: `$` masks a whole object document; `$[]` masks each
element of `[1,2,3]`. -/
theorem C4_root_masking_witness :
    mRED.maskFunc = some fRED
    ∧ decodeJson ("\x7b\"a\":1\x7d") = .ok (.obj (.cons ("a") (.num 1 0) .nil))
    ∧ Mask mRED ("\x7b\"a\":1\x7d") ["$"]
        = .ok (encodeJson (.str (fRED (.obj (.cons ("a") (.num 1 0) .nil)))))
    ∧ Mask mRED ("[1,2,3]") ["$[]"]
        = .ok (encodeJson (.arr (JsonList.map (fun x => .str (fRED x))
            (.cons (.num 1 0) (.cons (.num 2 0) (.cons (.num 3 0) .nil)))))) :=
  ⟨rfl, rfl,
   C4_root_masking.1 mRED fRED ("\x7b\"a\":1\x7d") (.obj (.cons ("a") (.num 1 0) .nil))
     rfl rfl (fun h => Json.noConfusion h),
   C4_root_masking.2 mRED fRED ("[1,2,3]")
     (.cons (.num 1 0) (.cons (.num 2 0) (.cons (.num 3 0) .nil))) rfl rfl⟩

/-- Counterexample to C4 as stated: `$[]` does not mask the entire document —
an object document passes through unchanged, and the masked array output is
the per-element masking, not the whole-document replacement string. -/
theorem C4_root_masking_counterexample :
    Mask mRED ("\x7b\"a\":1\x7d") ["$[]"] = .ok ("\x7b\"a\":1\x7d")
    ∧ ("\x7b\"a\":1\x7d" : String) ≠ ("\"[REDACTED]\"") :=
  ⟨rfl, by decide⟩

/-- C5: there is no default mask function — a masker built with no options
has a nil mask function and masking panics; the `[REDACTED]` replacement
only happens when the `WithFixedMaskString` option is configured (the
correction). -/
theorem C5_default_mask_function :
    ((NewMasker [] []).maskFunc = none)
    ∧ (∀ (m : masker) (rules : List String) (p : String) (v : Json),
        m.maskFunc = none → isMaskedPath p rules = true → v ≠ Json.null →
        (maskWithPaths m rules p v).1 = .error .nilMaskFunc)
    ∧ (∀ (mp rules : List String) (p : String) (v : Json),
        isMaskedPath p rules = true → v ≠ Json.null →
        maskWithPaths (NewMasker mp [WithFixedMaskString ("[REDACTED]")]) rules p v
          = (.ok (.json (.str ("[REDACTED]"))), [.processing p, .masking p])) := by
  refine ⟨rfl, ?_, ?_⟩
  · intro m rules p v hm hmem hv
    rw [maskWithPaths_masked_none m rules p v hm hmem hv]
  · intro mp rules p v hmem hv
    exact maskWithPaths_masked (NewMasker mp [WithFixedMaskString ("[REDACTED]")])
      rules p v (fun _ => "[REDACTED]") rfl hmem hv

/-- Witness for C5 at a concrete masked boolean node. -/
theorem C5_default_mask_function_witness :
    ((NewMasker ["$.a"] []).maskFunc = none)
    ∧ (maskWithPaths (NewMasker [] []) ["$.x"] ("$.x") (.bool true)).1 = .error .nilMaskFunc
    ∧ maskWithPaths (NewMasker [] [WithFixedMaskString ("[REDACTED]")]) ["$.x"] ("$.x") (.bool true)
        = (.ok (.json (.str ("[REDACTED]"))), [.processing ("$.x"), .masking ("$.x")]) :=
  ⟨rfl,
   C5_default_mask_function.2.1 (NewMasker [] []) ["$.x"] ("$.x") (.bool true)
     rfl rfl (fun h => Json.noConfusion h),
   C5_default_mask_function.2.2 [] ["$.x"] ("$.x") (.bool true)
     rfl (fun h => Json.noConfusion h)⟩

/-- Counterexample to C5 as stated: with no maskFunction option configured,
a matching rule does not produce `[REDACTED]` — the nil mask function makes
the walk panic. -/
theorem C5_default_mask_function_counterexample :
    Mask (NewMasker [] []) ("[1,2,3]") ["$[]"] = .error (.panicked .nilMaskFunc) := rfl

/-- C6: path normalization replaces every bracketed run of digits by `[]`
and leaves everything else untouched, returns index-free strings unchanged,
and is idempotent. -/
theorem C6_normalization_pure_total :
    (∀ (s₁ idx s₂ : String), idx.data ≠ [] → (∀ c ∈ idx.data, c.isDigit = true) →
        normalizePath (s₁ ++ "[" ++ idx ++ "]" ++ s₂)
          = normalizePath s₁ ++ "[]" ++ normalizePath s₂)
    ∧ (∀ s : String, hasBracketedIndex s = false → normalizePath s = s)
    ∧ (∀ p : String, normalizePath (normalizePath p) = normalizePath p) :=
  ⟨normalizePath_split, normalizePath_id, normalizePath_idem⟩

/-- Witness for C6 on concrete paths. -/
theorem C6_normalization_pure_total_witness :
    normalizePath ("$.a" ++ "[" ++ "12" ++ "]" ++ ".b")
        = normalizePath ("$.a") ++ "[]" ++ normalizePath (".b")
    ∧ normalizePath ("$.ab") = ("$.ab")
    ∧ normalizePath (normalizePath ("$.a[3].b")) = normalizePath ("$.a[3].b") :=
  ⟨C6_normalization_pure_total.1 ("$.a") ("12") (".b") (by decide) (by decide),
   C6_normalization_pure_total.2.1 ("$.ab") rfl,
   C6_normalization_pure_total.2.2 ("$.a[3].b")⟩

/-- C7: with an empty rule list, `Mask` round-trips a document whose value
tree is free of nulls: the output re-encodes the decoded tree and decodes
back to it.  The null-freedom restriction is the correction: a null object
entry is dropped from the output (see the counterexample). -/
theorem C7_empty_rules_roundtrip (m : masker) (doc : String) (v : Json)
    (hdec : decodeJson doc = .ok v) (hnf : nullFree v = true) :
    Mask m doc [] = .ok (encodeJson v) ∧ decodeJson (encodeJson v) = .ok v := by
  obtain ⟨tr, hw⟩ := walkId_v m ("$") v hnf
  exact ⟨Mask_walk_ok m doc [] v v tr hdec hw, decode_encode v⟩

/-- Witness for C7 on a concrete object document. -/
theorem C7_empty_rules_roundtrip_witness :
    decodeJson ("\x7b\"a\":1\x7d") = .ok (.obj (.cons ("a") (.num 1 0) .nil))
    ∧ nullFree (.obj (.cons ("a") (.num 1 0) .nil)) = true
    ∧ (Mask mRED ("\x7b\"a\":1\x7d") []
          = .ok (encodeJson (.obj (.cons ("a") (.num 1 0) .nil)))
        ∧ decodeJson (encodeJson (.obj (.cons ("a") (.num 1 0) .nil)))
          = .ok (.obj (.cons ("a") (.num 1 0) .nil))) :=
  ⟨rfl, rfl,
   C7_empty_rules_roundtrip mRED ("\x7b\"a\":1\x7d") (.obj (.cons ("a") (.num 1 0) .nil)) rfl rfl⟩

/-- Counterexample to C7 as stated: a null-valued object entry is deleted
by the walk, so the output is not deep-equal to the input document. -/
theorem C7_empty_rules_roundtrip_counterexample :
    Mask mRED ("\x7b\"a\":null\x7d") [] = .ok ("\x7b\x7d")
    ∧ decodeJson ("\x7b\"a\":null\x7d") = .ok (.obj (.cons ("a") Json.null .nil))
    ∧ decodeJson ("\x7b\x7d") = .ok (.obj .nil)
    ∧ (Json.obj (.cons ("a") Json.null .nil) ≠ Json.obj .nil) :=
  ⟨rfl, rfl, rfl, fun h => by
    injection h with h1
    exact JsonFields.noConfusion h1⟩

/-- C8: a scalar leaf none of whose ancestors (itself included) matches a
rule survives the walk at its position, so re-encoding renders it exactly as
the re-encoding of the input tree does.  The ancestor condition and the
null-freedom of the tree are the corrections: a leaf below a masked
ancestor disappears even though its own path matches no rule (see the
counterexample). -/
theorem C8_unmasked_leaf_preserved (steps : List Step) (m : masker) (f : Json → String)
    (rules : List String) (p : String) (v leaf : Json)
    (hf : m.maskFunc = some f) (hnf : nullFree v = true)
    (hget : getPath v steps = some leaf) (hs : isScalar leaf = true)
    (hpre : ∀ pre ∈ stepInits steps, isMaskedPath (stepsPath p pre) rules = false) :
    ∃ w tr, maskWithPaths m rules p v = (.ok (.json w), tr) ∧ getPath w steps = some leaf :=
  walk_preserves steps m f rules p v leaf hf hnf hget hs hpre

/-- Witness for C8: the leaf `7` at `$.a` survives a walk with an unrelated
rule. -/
theorem C8_unmasked_leaf_preserved_witness :
    nullFree (Json.obj (.cons ("a") (.num 7 0) .nil)) = true
    ∧ (∃ w tr, maskWithPaths mRED ["$.b"] ("$") (Json.obj (.cons ("a") (.num 7 0) .nil))
        = (.ok (.json w), tr) ∧ getPath w [Step.field ("a")] = some (.num 7 0)) :=
  ⟨rfl,
   C8_unmasked_leaf_preserved [Step.field ("a")] mRED fRED ["$.b"] ("$")
     (Json.obj (.cons ("a") (.num 7 0) .nil)) (.num 7 0)
     rfl rfl rfl rfl (by decide)⟩

/-- Counterexample to C8 as stated: the leaf at `$.a.b` matches no rule, yet
it does not appear in the output because its parent `$.a` is masked
wholesale. -/
theorem C8_unmasked_leaf_preserved_counterexample :
    isMaskedPath ("$.a.b") ["$.a"] = false
    ∧ Mask mRED ("\x7b\"a\":\x7b\"b\":1\x7d\x7d") ["$.a"]
        = .ok ("\x7b\"a\":\"[REDACTED]\"\x7d") :=
  ⟨rfl, rfl⟩

/-- C9: a decode failure short-circuits `Mask`: the error wraps the decoder's
message and no masking or encoding output is produced. -/
theorem C9_decode_error_short_circuit (m : masker) (input : String) (mp : List String)
    (e : String) (h : decodeJson input = .error e) :
    Mask m input mp = .error (.unmarshalFailed e) :=
  Mask_decode_error m input mp e h

/-- Witness for C9 on a malformed input. -/
theorem C9_decode_error_short_circuit_witness :
    decodeJson ("not json") = .error ("invalid literal")
    ∧ Mask mRED ("not json") ["$.a"] = .error (.unmarshalFailed ("invalid literal")) :=
  ⟨rfl, C9_decode_error_short_circuit mRED ("not json") ["$.a"] ("invalid literal") rfl⟩

/-- C10: whenever a replacement is placed for a masked (non-null) node, it
is a JSON string — the mask function returns `String`, so an object or
array node becomes a string in the output. -/
theorem C10_replacement_is_string (m : masker) (f : Json → String) (rules : List String)
    (p : String) (v : Json) (hf : m.maskFunc = some f)
    (hmem : isMaskedPath p rules = true) (hv : v ≠ Json.null) :
    ∃ s : String, (maskWithPaths m rules p v).1 = .ok (.json (.str s)) := by
  refine ⟨f v, ?_⟩
  rw [maskWithPaths_masked m rules p v f hf hmem hv]

/-- Witness for C10: a masked array node becomes a string. -/
theorem C10_replacement_is_string_witness :
    mRED.maskFunc = some fRED
    ∧ ∃ s, (maskWithPaths mRED ["$"] ("$") (Json.arr (.cons (.num 1 0) .nil))).1
        = .ok (.json (.str s)) :=
  ⟨rfl,
   C10_replacement_is_string mRED fRED ["$"] ("$") (Json.arr (.cons (.num 1 0) .nil))
     rfl rfl (fun h => Json.noConfusion h)⟩
